import Mathlib

/-!
Verification development for the split (shallow/deep) trie storage layer.

The repository partitions Merkle-Patricia trie nodes across two physical
tables by nibble-path depth: paths of length at most `SHALLOW_TRIE_DEPTH`
live in a shallow table, longer paths in a deep table.  A split read cursor
(`SplitAccountTrieCursor`, `SplitStorageTrieCursor` in
`src/reth-shallow-trie/src/trie_cursor.rs`) presents the two tables as one
sorted stream via a two-way merge, and a write router
(`src/reth-shallow-trie/src/write_routing.rs`) dispatches each update to the
table selected by its path depth.

Shallow embedding conventions:
* a nibble path is a `List Nat`, compared lexicographically (`pathLe`),
  matching the `Ord` of the repository's `Nibbles`;
* the branch-node payload is an opaque type parameter `N`;
* the storage engine's plain cursor is modelled by `Cursor`: the whole
  table as a sorted association list plus an optional position index.
  `seek` positions at the lower bound, `next` advances (a fresh cursor's
  first `next` yields the first entry, as with the engine's NEXT
  operation), `current` reads the entry at the position;
* the engine's duplicate-key cursor is modelled by `StorageAdapter`: a
  map from account hash to its duplicate list, the bound hash, and an
  optional position `(hash, index)`.  `seek` is the duplicate lower-bound
  seek scoped to the bound hash; `next` is the next-duplicate operation,
  which advances within the key the cursor is physically positioned on and
  stops at the account boundary;
* database writes are modelled by their effect on the table contents.
-/

/-- A trie path: a sequence of 4-bit nibbles (modelled as `Nat`). -/
abbrev Nibbles := List Nat

/-- An account hash scoping one per-account storage trie. -/
abbrev B256 := Nat

/-- Maximum nibble path length for the shallow tables
(`SHALLOW_TRIE_DEPTH` in `src/reth-shallow-trie/src/constants.rs`). -/
def SHALLOW_TRIE_DEPTH : Nat := 5

/-- Lexicographic order on nibble paths, the `Ord` used by the repository's
`Nibbles` keys: a proper path-extension compares greater. -/
def pathLe : Nibbles → Nibbles → Bool
  | [], _ => true
  | _ :: _, [] => false
  | a :: as, b :: bs =>
    if a < b then true
    else if b < a then false
    else pathLe as bs

/-- Strict lexicographic order on nibble paths. -/
def pathLt (p q : Nibbles) : Bool := !(pathLe q p)

theorem pathLe_refl (p : Nibbles) : pathLe p p = true := by
  induction p with
  | nil => rfl
  | cons a as ih => simp [pathLe, ih]

theorem pathLe_total (p q : Nibbles) : pathLe p q = true ∨ pathLe q p = true := by
  induction p generalizing q with
  | nil => exact Or.inl rfl
  | cons a as ih =>
    cases q with
    | nil => exact Or.inr rfl
    | cons b bs =>
      simp only [pathLe]
      rcases Nat.lt_trichotomy a b with h | h | h
      · left; simp [h]
      · subst h
        simp only [Nat.lt_irrefl, if_false]
        exact ih bs
      · right; simp [h]

theorem pathLe_trans {p q r : Nibbles} (h1 : pathLe p q = true) (h2 : pathLe q r = true) :
    pathLe p r = true := by
  induction p generalizing q r with
  | nil => rfl
  | cons a as ih =>
    cases q with
    | nil => simp [pathLe] at h1
    | cons b bs =>
      cases r with
      | nil => simp [pathLe] at h2
      | cons c cs =>
        simp only [pathLe] at h1 h2 ⊢
        rcases Nat.lt_trichotomy a b with hab | hab | hab
        · rcases Nat.lt_trichotomy b c with hbc | hbc | hbc
          · simp [show a < c by omega]
          · subst hbc; simp [hab]
          · have hnb : ¬ b < c := by omega
            simp [hnb, hbc] at h2
        · subst hab
          rcases Nat.lt_trichotomy a c with hac | hac | hac
          · simp [hac]
          · subst hac
            simp only [Nat.lt_irrefl, if_false] at h1 h2 ⊢
            exact ih h1 h2
          · have hna : ¬ a < c := by omega
            simp [hna, hac] at h2
        · have hna : ¬ a < b := by omega
          simp [hna, hab] at h1

theorem pathLe_antisymm {p q : Nibbles} (h1 : pathLe p q = true) (h2 : pathLe q p = true) :
    p = q := by
  induction p generalizing q with
  | nil =>
    cases q with
    | nil => rfl
    | cons b bs => simp [pathLe] at h2
  | cons a as ih =>
    cases q with
    | nil => simp [pathLe] at h1
    | cons b bs =>
      simp only [pathLe] at h1 h2
      rcases Nat.lt_trichotomy a b with hab | hab | hab
      · have hnb : ¬ b < a := by omega
        simp [hnb, hab] at h2
      · subst hab
        simp only [Nat.lt_irrefl, if_false] at h1 h2
        rw [ih h1 h2]
      · have hna : ¬ a < b := by omega
        simp [hna, hab] at h1

theorem pathLt_of_not_le {p q : Nibbles} (h : ¬ pathLe p q = true) : pathLt q p = true := by
  simp [pathLt, h]

theorem pathLe_of_lt {p q : Nibbles} (h : pathLt p q = true) : pathLe p q = true := by
  simp only [pathLt, Bool.not_eq_true'] at h
  rcases pathLe_total p q with h1 | h1
  · exact h1
  · rw [h1] at h; cases h

theorem pathLt_of_le_of_lt {p q r : Nibbles} (h1 : pathLe p q = true) (h2 : pathLt q r = true) :
    pathLt p r = true := by
  simp only [pathLt, Bool.not_eq_true'] at h2 ⊢
  by_contra hc
  simp only [Bool.not_eq_false] at hc
  have := pathLe_trans hc h1
  rw [this] at h2
  cases h2

theorem pathLt_of_lt_of_le {p q r : Nibbles} (h1 : pathLt p q = true) (h2 : pathLe q r = true) :
    pathLt p r = true := by
  simp only [pathLt, Bool.not_eq_true'] at h1 ⊢
  by_contra hc
  simp only [Bool.not_eq_false] at hc
  have := pathLe_trans h2 hc
  rw [this] at h1
  cases h1

theorem pathLt_trans {p q r : Nibbles} (h1 : pathLt p q = true) (h2 : pathLt q r = true) :
    pathLt p r = true :=
  pathLt_of_le_of_lt (pathLe_of_lt h1) h2

theorem pathLt_irrefl (p : Nibbles) : pathLt p p = false := by
  simp [pathLt, pathLe_refl]

theorem pathLt_ne {p q : Nibbles} (h : pathLt p q = true) : p ≠ q := by
  intro he; subst he; rw [pathLt_irrefl] at h; cases h

theorem pathLt_of_le_of_ne {p q : Nibbles} (h1 : pathLe p q = true) (h2 : p ≠ q) :
    pathLt p q = true := by
  simp only [pathLt, Bool.not_eq_true']
  by_contra hc
  simp only [Bool.not_eq_false] at hc
  exact h2 (pathLe_antisymm h1 hc)

/-- A table is sorted when its entries are in strictly ascending path order
(spec invariant 3). -/
def sortedTable {N : Type} (t : List (Nibbles × N)) : Prop :=
  t.Pairwise (fun a b => pathLt a.1 b.1 = true)

instance {N : Type} (t : List (Nibbles × N)) : Decidable (sortedTable t) := by
  unfold sortedTable
  infer_instance

/-!
## Storage-engine cursor models

`Cursor` models the engine's plain ordered table cursor (consumed through
the `ShallowAccountTrieCursor` / `DatabaseAccountTrieCursor` adapters in
`trie_cursor.rs`); `StorageAdapter` models the duplicate-key cursor plus
its bound account hash (the `ShallowStorageTrieCursor` /
`DatabaseStorageTrieCursor` adapters).
-/

/-- A plain-table cursor: the table's sorted entry list plus an optional
position index (`none` = freshly opened, not yet positioned). -/
structure Cursor (N : Type) where
  tbl : List (Nibbles × N)
  pos : Option Nat

/-- `seek(key)`: position at (and return) the first entry whose path is
`>= key`, else none (lower-bound semantics). -/
def Cursor.seek {N : Type} (key : Nibbles) (c : Cursor N) :
    Option (Nibbles × N) × Cursor N :=
  let i := c.tbl.findIdx fun e => pathLe key e.1
  (c.tbl[i]?, { c with pos := some i })

/-- `seek_exact(key)`: return the entry whose path equals `key`, else none;
the cursor is positioned at the key's lower bound. -/
def Cursor.seekExact {N : Type} (key : Nibbles) (c : Cursor N) :
    Option (Nibbles × N) × Cursor N :=
  let i := c.tbl.findIdx fun e => pathLe key e.1
  (c.tbl.find? fun e => decide (e.1 = key), { c with pos := some i })

/-- `next()`: advance and return the next entry; on a freshly opened cursor
this yields the first entry of the table (engine NEXT semantics). -/
def Cursor.next {N : Type} (c : Cursor N) : Option (Nibbles × N) × Cursor N :=
  match c.pos with
  | none => (c.tbl[0]?, { c with pos := some 0 })
  | some i => (c.tbl[i + 1]?, { c with pos := some (i + 1) })

/-- `current()`: the path at the cursor's position, else none. -/
def Cursor.current {N : Type} (c : Cursor N) : Option Nibbles :=
  match c.pos with
  | none => none
  | some i => (c.tbl[i]?).map fun e => e.1

/-- A duplicate-key (storage trie) cursor adapter: the database maps each
account hash to its duplicate list (sorted by path sub-key), plus the
adapter's bound account hash and the underlying cursor's physical position
`(hash, duplicate index)`. -/
structure StorageAdapter (N : Type) where
  db : B256 → List (Nibbles × N)
  hashed_address : B256
  pos : Option (B256 × Nat)

/-- `seek(key)` via `seek_by_key_subkey`: the first duplicate under the
bound hash whose path is `>= key` (result not filtered). -/
def StorageAdapter.seek {N : Type} (key : Nibbles) (a : StorageAdapter N) :
    Option (Nibbles × N) × StorageAdapter N :=
  let dups := a.db a.hashed_address
  let i := dups.findIdx fun e => pathLe key e.1
  (dups[i]?, { a with pos := some (a.hashed_address, i) })

/-- `seek_exact(key)` via `seek_by_key_subkey` with the candidate accepted
only when its stored sub-key equals `key`. -/
def StorageAdapter.seekExact {N : Type} (key : Nibbles) (a : StorageAdapter N) :
    Option (Nibbles × N) × StorageAdapter N :=
  let r := a.seek key
  (r.1.filter fun e => decide (e.1 = key), r.2)

/-- `next()` via `next_dup`: the next duplicate of the key the cursor is
physically positioned on; none at the account boundary or on an
unpositioned cursor. -/
def StorageAdapter.next {N : Type} (a : StorageAdapter N) :
    Option (Nibbles × N) × StorageAdapter N :=
  match a.pos with
  | none => (none, a)
  | some (h, i) => ((a.db h)[i + 1]?, { a with pos := some (h, i + 1) })

/-- `current()`: the sub-key path at the cursor's position, else none. -/
def StorageAdapter.current {N : Type} (a : StorageAdapter N) : Option Nibbles :=
  match a.pos with
  | none => none
  | some (h, i) => ((a.db h)[i]?).map fun e => e.1

/-- `set_hashed_address`: re-bind the adapter's account hash (the physical
cursor position is untouched). -/
def StorageAdapter.set_hashed_address {N : Type} (h : B256) (a : StorageAdapter N) :
    StorageAdapter N :=
  { a with hashed_address := h }

/-!
## The split cursor's merge state and operations

`trie_cursor.rs` duplicates the same two-way merge for
`SplitAccountTrieCursor` and `SplitStorageTrieCursor`; here the shared
merge state is one structure `SplitCursorState` parameterised by the
underlying cursor type, and each Rust method is the corresponding
`...With` operation applied to that cursor type's primitive.
-/

/-- Which underlying cursor was consumed on the last call
(`CursorSource` in `trie_cursor.rs`). -/
inductive CursorSource where
  | shallow : CursorSource
  | deep : CursorSource
deriving DecidableEq, Repr

/-- Merge state of a split cursor: the two underlying cursors, the two
buffered pending entries, and the last-consumed tag. -/
structure SplitCursorState (σ : Type) (N : Type) where
  shallow : σ
  deep : σ
  pending_shallow : Option (Nibbles × N)
  pending_deep : Option (Nibbles × N)
  last_consumed : Option CursorSource

/-- `consume_smaller`: compare the two pending slots and consume (return)
the smaller entry, leaving the other buffered; ties go to the shallow
side.  Mirrors `SplitAccountTrieCursor::consume_smaller` and
`SplitStorageTrieCursor::consume_smaller`. -/
def SplitCursorState.consume_smaller {σ N : Type} :
    SplitCursorState σ N → Option (Nibbles × N) × SplitCursorState σ N
  | ⟨sh, dp, some s, some d, _⟩ =>
    if pathLe s.1 d.1 then
      (some s, ⟨sh, dp, none, some d, some CursorSource.shallow⟩)
    else
      (some d, ⟨sh, dp, some s, none, some CursorSource.deep⟩)
  | ⟨sh, dp, some s, none, _⟩ =>
    (some s, ⟨sh, dp, none, none, some CursorSource.shallow⟩)
  | ⟨sh, dp, none, some d, _⟩ =>
    (some d, ⟨sh, dp, none, none, some CursorSource.deep⟩)
  | ⟨sh, dp, none, none, _⟩ =>
    (none, ⟨sh, dp, none, none, none⟩)

/-- `seek(key)`: seek both underlying cursors, buffer both results, return
the smaller. -/
def SplitCursorState.seekWith {σ N : Type} (sf : σ → Option (Nibbles × N) × σ) :
    SplitCursorState σ N → Option (Nibbles × N) × SplitCursorState σ N
  | ⟨sh, dp, _, _, lc⟩ =>
    let rs := sf sh
    let rd := sf dp
    SplitCursorState.consume_smaller ⟨rs.2, rd.2, rs.1, rd.1, lc⟩

/-- `seek_exact(key)`: clear both pending slots, dispatch by path depth to
exactly one underlying cursor, tag it as last consumed and return its
result. -/
def SplitCursorState.seekExactWith {σ N : Type} (sef : σ → Option (Nibbles × N) × σ)
    (key : Nibbles) : SplitCursorState σ N → Option (Nibbles × N) × SplitCursorState σ N
  | ⟨sh, dp, _, _, _⟩ =>
    if key.length ≤ SHALLOW_TRIE_DEPTH then
      let r := sef sh
      (r.1, ⟨r.2, dp, none, none, some CursorSource.shallow⟩)
    else
      let r := sef dp
      (r.1, ⟨sh, r.2, none, none, some CursorSource.deep⟩)

/-- `next()`: refill the slot matching `last_consumed` (or any empty slot
when it is `none`), then return the smaller pending entry. -/
def SplitCursorState.nextWith {σ N : Type} (nf : σ → Option (Nibbles × N) × σ) :
    SplitCursorState σ N → Option (Nibbles × N) × SplitCursorState σ N
  | ⟨sh, dp, _, pd, some CursorSource.shallow⟩ =>
    let r := nf sh
    SplitCursorState.consume_smaller ⟨r.2, dp, r.1, pd, some CursorSource.shallow⟩
  | ⟨sh, dp, ps, _, some CursorSource.deep⟩ =>
    let r := nf dp
    SplitCursorState.consume_smaller ⟨sh, r.2, ps, r.1, some CursorSource.deep⟩
  | ⟨sh, dp, ps, pd, none⟩ =>
    let s1 : σ × Option (Nibbles × N) :=
      match ps with
      | none => ((nf sh).2, (nf sh).1)
      | some e => (sh, some e)
    let d1 : σ × Option (Nibbles × N) :=
      match pd with
      | none => ((nf dp).2, (nf dp).1)
      | some e => (dp, some e)
    SplitCursorState.consume_smaller ⟨s1.1, d1.1, s1.2, d1.2, none⟩

/-- `current()`: the current path of whichever side was last consumed;
none if none has been consumed. -/
def SplitCursorState.currentWith {σ N : Type} (cf : σ → Option Nibbles) :
    SplitCursorState σ N → Option Nibbles
  | ⟨sh, _, _, _, some CursorSource.shallow⟩ => cf sh
  | ⟨_, dp, _, _, some CursorSource.deep⟩ => cf dp
  | ⟨_, _, _, _, none⟩ => none

/-- `reset()`: clear both pending slots and `last_consumed`; the
underlying cursors keep their positions. -/
def SplitCursorState.reset {σ N : Type} :
    SplitCursorState σ N → SplitCursorState σ N
  | ⟨sh, dp, _, _, _⟩ => ⟨sh, dp, none, none, none⟩

/-! ### The account split cursor (`SplitAccountTrieCursor` in `trie_cursor.rs`) -/

/-- An account split cursor: merge state over two plain-table cursors. -/
abbrev SplitAccountTrieCursor (N : Type) := SplitCursorState (Cursor N) N

/-- `SplitAccountTrieCursor::new` over the two tables (fresh cursors). -/
def SplitAccountTrieCursor.new {N : Type} (S D : List (Nibbles × N)) :
    SplitAccountTrieCursor N :=
  ⟨⟨S, none⟩, ⟨D, none⟩, none, none, none⟩

def SplitAccountTrieCursor.seek {N : Type} (key : Nibbles) (st : SplitAccountTrieCursor N) :
    Option (Nibbles × N) × SplitAccountTrieCursor N :=
  SplitCursorState.seekWith (Cursor.seek key) st

def SplitAccountTrieCursor.seek_exact {N : Type} (key : Nibbles)
    (st : SplitAccountTrieCursor N) : Option (Nibbles × N) × SplitAccountTrieCursor N :=
  SplitCursorState.seekExactWith (Cursor.seekExact key) key st

def SplitAccountTrieCursor.next {N : Type} (st : SplitAccountTrieCursor N) :
    Option (Nibbles × N) × SplitAccountTrieCursor N :=
  SplitCursorState.nextWith Cursor.next st

def SplitAccountTrieCursor.current {N : Type} (st : SplitAccountTrieCursor N) :
    Option Nibbles :=
  SplitCursorState.currentWith Cursor.current st

/-! ### The storage split cursor (`SplitStorageTrieCursor` in `trie_cursor.rs`) -/

/-- A storage split cursor: merge state over two duplicate-key adapters. -/
abbrev SplitStorageTrieCursor (N : Type) := SplitCursorState (StorageAdapter N) N

/-- `SplitStorageTrieCursor::new` over the two storage databases, bound to
an initial account hash. -/
def SplitStorageTrieCursor.new {N : Type} (sdb ddb : B256 → List (Nibbles × N))
    (hashed_address : B256) : SplitStorageTrieCursor N :=
  ⟨⟨sdb, hashed_address, none⟩, ⟨ddb, hashed_address, none⟩, none, none, none⟩

def SplitStorageTrieCursor.seek {N : Type} (key : Nibbles) (st : SplitStorageTrieCursor N) :
    Option (Nibbles × N) × SplitStorageTrieCursor N :=
  SplitCursorState.seekWith (StorageAdapter.seek key) st

def SplitStorageTrieCursor.seek_exact {N : Type} (key : Nibbles)
    (st : SplitStorageTrieCursor N) : Option (Nibbles × N) × SplitStorageTrieCursor N :=
  SplitCursorState.seekExactWith (StorageAdapter.seekExact key) key st

def SplitStorageTrieCursor.next {N : Type} (st : SplitStorageTrieCursor N) :
    Option (Nibbles × N) × SplitStorageTrieCursor N :=
  SplitCursorState.nextWith StorageAdapter.next st

def SplitStorageTrieCursor.current {N : Type} (st : SplitStorageTrieCursor N) :
    Option Nibbles :=
  SplitCursorState.currentWith StorageAdapter.current st

/-- `set_hashed_address(h)` on the storage split cursor: re-bind both
adapters' account hash and clear the merge state. -/
def SplitStorageTrieCursor.set_hashed_address {N : Type} (h : B256)
    (st : SplitStorageTrieCursor N) : SplitStorageTrieCursor N :=
  ⟨st.shallow.set_hashed_address h, st.deep.set_hashed_address h, none, none, none⟩

/-!
## Traversal streams

`nextStreamWith` collects the entries produced by repeated `next()` calls,
stopping at the first none (`fuel` bounds the recursion and is always
instantiated large enough); `traverseWith` is `seek` followed by that
stream, the full forward traversal of the claims.
-/

def nextStreamWith {σ N : Type} (nf : σ → Option (Nibbles × N) × σ) :
    SplitCursorState σ N → Nat → List (Nibbles × N)
  | _, 0 => []
  | st, fuel + 1 =>
    match SplitCursorState.nextWith nf st with
    | (none, _) => []
    | (some e, st') => e :: nextStreamWith nf st' fuel

def traverseWith {σ N : Type} (sf : σ → Option (Nibbles × N) × σ)
    (nf : σ → Option (Nibbles × N) × σ) (st : SplitCursorState σ N) (fuel : Nat) :
    List (Nibbles × N) :=
  match SplitCursorState.seekWith sf st with
  | (none, _) => []
  | (some e, st') => e :: nextStreamWith nf st' fuel

/-- Full forward account traversal: `seek(key)` + repeated `next()`. -/
def accountTraverse {N : Type} (key : Nibbles) (st : SplitAccountTrieCursor N)
    (fuel : Nat) : List (Nibbles × N) :=
  traverseWith (Cursor.seek key) Cursor.next st fuel

/-- Full forward storage traversal: `seek(key)` + repeated `next()`. -/
def storageTraverse {N : Type} (key : Nibbles) (st : SplitStorageTrieCursor N)
    (fuel : Nat) : List (Nibbles × N) :=
  traverseWith (StorageAdapter.seek key) StorageAdapter.next st fuel

/-- The reference two-way sorted merge: smaller head first, ties to the
left (shallow) list. -/
def mergeEntries {N : Type} : List (Nibbles × N) → List (Nibbles × N) → List (Nibbles × N)
  | [], ys => ys
  | x :: xs, [] => x :: xs
  | x :: xs, y :: ys =>
    if pathLe x.1 y.1 then x :: mergeEntries xs (y :: ys)
    else y :: mergeEntries (x :: xs) ys

/-!
## Stream abstraction for the merge proof

`Yields nf c l` states that from cursor state `c`, successive `nf` calls
produce exactly the entries of `l` and then none.
-/

inductive Yields {σ N : Type} (nf : σ → Option (Nibbles × N) × σ) :
    σ → List (Nibbles × N) → Prop where
  | nil : ∀ {c c'}, nf c = (none, c') → Yields nf c []
  | cons : ∀ {c e c' l}, nf c = (some e, c') → Yields nf c' l → Yields nf c (e :: l)

/-- A positioned plain cursor yields exactly the entries after its
position. -/
theorem cursor_yields {N : Type} (tbl : List (Nibbles × N)) :
    ∀ (l : List (Nibbles × N)) (i : Nat), tbl.drop (i + 1) = l →
      Yields Cursor.next ⟨tbl, some i⟩ l := by
  intro l
  induction l with
  | nil =>
    intro i h
    have h0 : tbl[i + 1]? = none := by
      rw [← List.head?_drop, h]; rfl
    have hstep : Cursor.next (⟨tbl, some i⟩ : Cursor N)
        = (none, ⟨tbl, some (i + 1)⟩) := by
      simp [Cursor.next, h0]
    exact Yields.nil hstep
  | cons e rest ih =>
    intro i h
    have h1 : tbl[i + 1]? = some e := by
      rw [← List.head?_drop, h]; rfl
    have h2 : tbl.drop (i + 1 + 1) = rest := by
      have := List.tail_drop tbl (i + 1)
      rw [h] at this
      exact this.symm
    have hstep : Cursor.next (⟨tbl, some i⟩ : Cursor N)
        = (some e, ⟨tbl, some (i + 1)⟩) := by
      simp [Cursor.next, h1]
    exact Yields.cons hstep (ih (i + 1) h2)

/-- A positioned duplicate-key adapter yields exactly the remaining
duplicates of the key it is positioned on. -/
theorem adapter_yields {N : Type} (db : B256 → List (Nibbles × N)) (ha h0 : B256) :
    ∀ (l : List (Nibbles × N)) (i : Nat), (db h0).drop (i + 1) = l →
      Yields StorageAdapter.next ⟨db, ha, some (h0, i)⟩ l := by
  intro l
  induction l with
  | nil =>
    intro i h
    have hnil : (db h0)[i + 1]? = none := by
      rw [← List.head?_drop, h]; rfl
    have hstep : StorageAdapter.next (⟨db, ha, some (h0, i)⟩ : StorageAdapter N)
        = (none, ⟨db, ha, some (h0, i + 1)⟩) := by
      simp [StorageAdapter.next, hnil]
    exact Yields.nil hstep
  | cons e rest ih =>
    intro i h
    have h1 : (db h0)[i + 1]? = some e := by
      rw [← List.head?_drop, h]; rfl
    have h2 : (db h0).drop (i + 1 + 1) = rest := by
      have := List.tail_drop (db h0) (i + 1)
      rw [h] at this
      exact this.symm
    have hstep : StorageAdapter.next (⟨db, ha, some (h0, i)⟩ : StorageAdapter N)
        = (some e, ⟨db, ha, some (h0, i + 1)⟩) := by
      simp [StorageAdapter.next, h1]
    exact Yields.cons hstep (ih (i + 1) h2)

/-- On a sorted table, the entries at and after the lower bound of `key`
are exactly the entries whose path is `>= key`. -/
theorem sorted_filter_ge_eq_drop {N : Type} (key : Nibbles) :
    ∀ (t : List (Nibbles × N)), sortedTable t →
      t.filter (fun e => pathLe key e.1) = t.drop (t.findIdx fun e => pathLe key e.1) := by
  intro t
  induction t with
  | nil => intro _; rfl
  | cons e rest ih =>
    intro hs
    rw [List.findIdx_cons]
    cases hke : pathLe key e.1 with
    | true =>
      simp only [cond_true, List.drop_zero]
      apply List.filter_eq_self.mpr
      intro f hf
      rcases List.mem_cons.mp hf with rfl | hf
      · simpa using hke
      · have hlt : pathLt e.1 f.1 = true := (List.pairwise_cons.mp hs).1 f hf
        simpa using pathLe_trans hke (pathLe_of_lt hlt)
    | false =>
      simp only [cond_false, List.drop_succ_cons, List.filter_cons, hke, Bool.false_eq_true,
        if_false]
      exact ih (List.pairwise_cons.mp hs).2

/-- `mergeEntries` is a permutation of the two input lists. -/
theorem mergeEntries_perm {N : Type} :
    ∀ (xs ys : List (Nibbles × N)), (mergeEntries xs ys).Perm (xs ++ ys) := by
  intro xs
  induction xs with
  | nil => intro ys; simp [mergeEntries]
  | cons x xs ihx =>
    intro ys
    induction ys with
    | nil => simp [mergeEntries]
    | cons y ys ihy =>
      simp only [mergeEntries]
      by_cases hxy : pathLe x.1 y.1 = true
      · rw [if_pos hxy]
        exact (ihx (y :: ys)).cons x
      · rw [if_neg hxy]
        exact (ihy.cons y).trans List.perm_middle.symm

theorem mem_mergeEntries {N : Type} (a : Nibbles × N) (xs ys : List (Nibbles × N)) :
    a ∈ mergeEntries xs ys ↔ a ∈ xs ∨ a ∈ ys := by
  rw [(mergeEntries_perm xs ys).mem_iff, List.mem_append]

theorem length_mergeEntries {N : Type} (xs ys : List (Nibbles × N)) :
    (mergeEntries xs ys).length = xs.length + ys.length := by
  rw [(mergeEntries_perm xs ys).length_eq, List.length_append]

/-- The merge of two sorted, path-disjoint lists is sorted. -/
theorem sorted_mergeEntries {N : Type} :
    ∀ (xs : List (Nibbles × N)), sortedTable xs → ∀ (ys : List (Nibbles × N)),
      sortedTable ys → (∀ a ∈ xs, ∀ b ∈ ys, a.1 ≠ b.1) →
      sortedTable (mergeEntries xs ys) := by
  intro xs
  induction xs with
  | nil => intro _ ys hy _; simpa [mergeEntries] using hy
  | cons x xs ihx =>
    intro hx ys
    induction ys with
    | nil => intro _ _; simpa [mergeEntries] using hx
    | cons y ys ihy =>
      intro hy hdis
      simp only [mergeEntries]
      by_cases hxy : pathLe x.1 y.1 = true
      · rw [if_pos hxy]
        have hlt : pathLt x.1 y.1 = true :=
          pathLt_of_le_of_ne hxy (hdis x (List.mem_cons_self x xs) y (List.mem_cons_self y ys))
        apply List.pairwise_cons.mpr
        refine ⟨?_, ?_⟩
        · intro b hb
          rcases (mem_mergeEntries b xs (y :: ys)).mp hb with h | h
          · exact (List.pairwise_cons.mp hx).1 b h
          · rcases List.mem_cons.mp h with rfl | h
            · exact hlt
            · exact pathLt_trans hlt ((List.pairwise_cons.mp hy).1 b h)
        · exact ihx (List.pairwise_cons.mp hx).2 (y :: ys) hy
            (fun a ha b hb => hdis a (List.mem_cons_of_mem x ha) b hb)
      · rw [if_neg hxy]
        have hlt : pathLt y.1 x.1 = true := pathLt_of_not_le hxy
        apply List.pairwise_cons.mpr
        refine ⟨?_, ?_⟩
        · intro b hb
          rcases (mem_mergeEntries b (x :: xs) ys).mp hb with h | h
          · rcases List.mem_cons.mp h with rfl | h
            · exact hlt
            · exact pathLt_trans hlt ((List.pairwise_cons.mp hx).1 b h)
          · exact (List.pairwise_cons.mp hy).1 b h
        · exact ihy (List.pairwise_cons.mp hy).2
            (fun a ha b hb => hdis a ha b (List.mem_cons_of_mem y hb))

/-!
## The merge invariant and the stream theorem

After an operation that returned an entry, each side of the merge state is
in one of three configurations with respect to the entries it still has to
deliver: consumed-last (pending slot empty, the underlying cursor yields
the remainder), buffered (pending slot holds the head of the remainder),
or exhausted (pending slot empty, nothing left).
-/

/-- Remaining entries of one side of the merge state.  `isLast` says the
side is the one tagged by `last_consumed` (so `next()` will refill it). -/
def SideRem {σ N : Type} (nf : σ → Option (Nibbles × N) × σ) (c : σ)
    (pending : Option (Nibbles × N)) (isLast : Bool) (xs : List (Nibbles × N)) : Prop :=
  match pending, isLast with
  | some e, false => ∃ t, xs = e :: t ∧ Yields nf c t
  | none, true => Yields nf c xs
  | none, false => xs = []
  | some _, true => False

/-- State invariant between two operations of an in-progress traversal:
the last call consumed one side, and each side's remaining entries are as
described by `SideRem`. -/
def PostInv {σ N : Type} (nf : σ → Option (Nibbles × N) × σ) (st : SplitCursorState σ N)
    (xs ys : List (Nibbles × N)) : Prop :=
  (st.last_consumed = some CursorSource.shallow ∧
    SideRem nf st.shallow st.pending_shallow true xs ∧
    SideRem nf st.deep st.pending_deep false ys) ∨
  (st.last_consumed = some CursorSource.deep ∧
    SideRem nf st.shallow st.pending_shallow false xs ∧
    SideRem nf st.deep st.pending_deep true ys)

/-- The merge of any list with an empty right list is that list. -/
theorem mergeEntries_nil_right {N : Type} (xs : List (Nibbles × N)) :
    mergeEntries xs [] = xs := by
  cases xs <;> simp [mergeEntries]

/-- The stream theorem: from a state satisfying the merge invariant,
repeated `next()` calls yield exactly the sorted merge of the two sides'
remaining entries. -/
theorem nextStream_eq_merge {σ N : Type} (nf : σ → Option (Nibbles × N) × σ) :
    ∀ (fuel : Nat) (st : SplitCursorState σ N) (xs ys : List (Nibbles × N)),
      PostInv nf st xs ys → xs.length + ys.length ≤ fuel →
      nextStreamWith nf st fuel = mergeEntries xs ys := by
  intro fuel
  induction fuel with
  | zero =>
    intro st xs ys _ hlen
    have hx : xs = [] := List.length_eq_zero.mp (by omega)
    have hy : ys = [] := List.length_eq_zero.mp (by omega)
    subst hx; subst hy
    simp [nextStreamWith, mergeEntries]
  | succ fuel ih =>
    intro st xs ys hinv hlen
    obtain ⟨sh, dp, ps, pd, lc⟩ := st
    rcases hinv with ⟨hlc, hs, hd⟩ | ⟨hlc, hs, hd⟩
    all_goals simp only at hlc hs hd
    all_goals subst hlc
    · -- last consumed: shallow; next() refills the shallow side
      cases ps with
      | some e => exact absurd hs (by simp [SideRem])
      | none =>
        simp only [SideRem] at hs
        cases xs with
        | nil =>
          cases hs with
          | nil hnf =>
            rename_i c'
            cases pd with
            | some d =>
              simp only [SideRem] at hd
              obtain ⟨t, rfl, hyd⟩ := hd
              have hstep :
                  SplitCursorState.nextWith nf ⟨sh, dp, none, some d, some CursorSource.shallow⟩
                    = (some d, ⟨c', dp, none, none, some CursorSource.deep⟩) := by
                simp [SplitCursorState.nextWith, hnf, SplitCursorState.consume_smaller]
              have hrec := ih ⟨c', dp, none, none, some CursorSource.deep⟩ [] t
                (Or.inr ⟨rfl, rfl, hyd⟩) (by simp at hlen ⊢; omega)
              rw [nextStreamWith, hstep]
              simp only [hrec]
              simp [mergeEntries]
            | none =>
              simp only [SideRem] at hd
              subst hd
              have hstep :
                  SplitCursorState.nextWith nf ⟨sh, dp, none, none, some CursorSource.shallow⟩
                    = (none, ⟨c', dp, none, none, none⟩) := by
                simp [SplitCursorState.nextWith, hnf, SplitCursorState.consume_smaller]
              rw [nextStreamWith, hstep]
              simp [mergeEntries]
        | cons e xs' =>
          cases hs with
          | cons hnf hy' =>
            rename_i c'
            cases pd with
            | some d =>
              simp only [SideRem] at hd
              obtain ⟨t, rfl, hyd⟩ := hd
              by_cases hxy : pathLe e.1 d.1 = true
              · have hstep :
                    SplitCursorState.nextWith nf ⟨sh, dp, none, some d, some CursorSource.shallow⟩
                      = (some e, ⟨c', dp, none, some d, some CursorSource.shallow⟩) := by
                  simp [SplitCursorState.nextWith, hnf, SplitCursorState.consume_smaller, hxy]
                have hrec := ih ⟨c', dp, none, some d, some CursorSource.shallow⟩ xs' (d :: t)
                  (Or.inl ⟨rfl, hy', t, rfl, hyd⟩) (by simp at hlen ⊢; omega)
                rw [nextStreamWith, hstep]
                simp only [hrec]
                simp [mergeEntries, hxy]
              · have hstep :
                    SplitCursorState.nextWith nf ⟨sh, dp, none, some d, some CursorSource.shallow⟩
                      = (some d, ⟨c', dp, some e, none, some CursorSource.deep⟩) := by
                  simp [SplitCursorState.nextWith, hnf, SplitCursorState.consume_smaller, hxy]
                have hrec := ih ⟨c', dp, some e, none, some CursorSource.deep⟩ (e :: xs') t
                  (Or.inr ⟨rfl, ⟨xs', rfl, hy'⟩, hyd⟩) (by simp at hlen ⊢; omega)
                rw [nextStreamWith, hstep]
                simp only [hrec]
                simp [mergeEntries, hxy]
            | none =>
              simp only [SideRem] at hd
              subst hd
              have hstep :
                  SplitCursorState.nextWith nf ⟨sh, dp, none, none, some CursorSource.shallow⟩
                    = (some e, ⟨c', dp, none, none, some CursorSource.shallow⟩) := by
                simp [SplitCursorState.nextWith, hnf, SplitCursorState.consume_smaller]
              have hrec := ih ⟨c', dp, none, none, some CursorSource.shallow⟩ xs' []
                (Or.inl ⟨rfl, hy', rfl⟩) (by simp at hlen ⊢; omega)
              rw [nextStreamWith, hstep]
              simp only [hrec]
              simp [mergeEntries, mergeEntries_nil_right]
    · -- last consumed: deep; next() refills the deep side
      cases pd with
      | some d => exact absurd hd (by simp [SideRem])
      | none =>
        simp only [SideRem] at hd
        cases ys with
        | nil =>
          cases hd with
          | nil hnf =>
            rename_i c'
            cases ps with
            | some e =>
              simp only [SideRem] at hs
              obtain ⟨t, rfl, hys⟩ := hs
              have hstep :
                  SplitCursorState.nextWith nf ⟨sh, dp, some e, none, some CursorSource.deep⟩
                    = (some e, ⟨sh, c', none, none, some CursorSource.shallow⟩) := by
                simp [SplitCursorState.nextWith, hnf, SplitCursorState.consume_smaller]
              have hrec := ih ⟨sh, c', none, none, some CursorSource.shallow⟩ t []
                (Or.inl ⟨rfl, hys, rfl⟩) (by simp at hlen ⊢; omega)
              rw [nextStreamWith, hstep]
              simp only [hrec]
              simp [mergeEntries, mergeEntries_nil_right]
            | none =>
              simp only [SideRem] at hs
              subst hs
              have hstep :
                  SplitCursorState.nextWith nf ⟨sh, dp, none, none, some CursorSource.deep⟩
                    = (none, ⟨sh, c', none, none, none⟩) := by
                simp [SplitCursorState.nextWith, hnf, SplitCursorState.consume_smaller]
              rw [nextStreamWith, hstep]
              simp [mergeEntries]
        | cons d ys' =>
          cases hd with
          | cons hnf hy' =>
            rename_i c'
            cases ps with
            | some e =>
              simp only [SideRem] at hs
              obtain ⟨t, rfl, hys⟩ := hs
              by_cases hxy : pathLe e.1 d.1 = true
              · have hstep :
                    SplitCursorState.nextWith nf ⟨sh, dp, some e, none, some CursorSource.deep⟩
                      = (some e, ⟨sh, c', none, some d, some CursorSource.shallow⟩) := by
                  simp [SplitCursorState.nextWith, hnf, SplitCursorState.consume_smaller, hxy]
                have hrec := ih ⟨sh, c', none, some d, some CursorSource.shallow⟩ t (d :: ys')
                  (Or.inl ⟨rfl, hys, ys', rfl, hy'⟩) (by simp at hlen ⊢; omega)
                rw [nextStreamWith, hstep]
                simp only [hrec]
                simp [mergeEntries, hxy]
              · have hstep :
                    SplitCursorState.nextWith nf ⟨sh, dp, some e, none, some CursorSource.deep⟩
                      = (some d, ⟨sh, c', some e, none, some CursorSource.deep⟩) := by
                  simp [SplitCursorState.nextWith, hnf, SplitCursorState.consume_smaller, hxy]
                have hrec := ih ⟨sh, c', some e, none, some CursorSource.deep⟩ (e :: t) ys'
                  (Or.inr ⟨rfl, ⟨t, rfl, hys⟩, hy'⟩) (by simp at hlen ⊢; omega)
                rw [nextStreamWith, hstep]
                simp only [hrec]
                simp [mergeEntries, hxy]
            | none =>
              simp only [SideRem] at hs
              subst hs
              have hstep :
                  SplitCursorState.nextWith nf ⟨sh, dp, none, none, some CursorSource.deep⟩
                    = (some d, ⟨sh, c', none, none, some CursorSource.deep⟩) := by
                simp [SplitCursorState.nextWith, hnf, SplitCursorState.consume_smaller]
              have hrec := ih ⟨sh, c', none, none, some CursorSource.deep⟩ [] ys'
                (Or.inr ⟨rfl, rfl, hy'⟩) (by simp at hlen ⊢; omega)
              rw [nextStreamWith, hstep]
              simp only [hrec]
              simp [mergeEntries]

/-- Traversal glue: when `seek` buffers the heads of the two remaining
streams and positions each underlying cursor to yield the corresponding
tail, the full traversal is the sorted merge of the two streams. -/
theorem traverse_eq_merge {σ N : Type} (sf nf : σ → Option (Nibbles × N) × σ)
    (st : SplitCursorState σ N) (xs ys : List (Nibbles × N)) (fuel : Nat)
    (hsh1 : (sf st.shallow).1 = xs.head?)
    (hsh2 : ∀ e t, xs = e :: t → Yields nf (sf st.shallow).2 t)
    (hdp1 : (sf st.deep).1 = ys.head?)
    (hdp2 : ∀ e t, ys = e :: t → Yields nf (sf st.deep).2 t)
    (hlen : xs.length + ys.length ≤ fuel + 1) :
    traverseWith sf nf st fuel = mergeEntries xs ys := by
  obtain ⟨sh, dp, ps, pd, lc⟩ := st
  simp only at hsh1 hsh2 hdp1 hdp2
  cases xs with
  | nil =>
    cases ys with
    | nil =>
      have hseek : SplitCursorState.seekWith sf ⟨sh, dp, ps, pd, lc⟩
          = (none, ⟨(sf sh).2, (sf dp).2, none, none, none⟩) := by
        simp only [SplitCursorState.seekWith]
        rw [show (sf sh).1 = none from hsh1, show (sf dp).1 = none from hdp1]
        simp [SplitCursorState.consume_smaller]
      rw [traverseWith, hseek]
      simp [mergeEntries]
    | cons y ys' =>
      have hseek : SplitCursorState.seekWith sf ⟨sh, dp, ps, pd, lc⟩
          = (some y, ⟨(sf sh).2, (sf dp).2, none, none, some CursorSource.deep⟩) := by
        simp only [SplitCursorState.seekWith]
        rw [show (sf sh).1 = none from hsh1, show (sf dp).1 = some y from hdp1]
        simp [SplitCursorState.consume_smaller]
      have hrec := nextStream_eq_merge nf fuel
        ⟨(sf sh).2, (sf dp).2, none, none, some CursorSource.deep⟩ [] ys'
        (Or.inr ⟨rfl, rfl, hdp2 y ys' rfl⟩) (by simp at hlen ⊢; omega)
      rw [traverseWith, hseek]
      simp only [hrec]
      simp [mergeEntries]
  | cons x xs' =>
    cases ys with
    | nil =>
      have hseek : SplitCursorState.seekWith sf ⟨sh, dp, ps, pd, lc⟩
          = (some x, ⟨(sf sh).2, (sf dp).2, none, none, some CursorSource.shallow⟩) := by
        simp only [SplitCursorState.seekWith]
        rw [show (sf sh).1 = some x from hsh1, show (sf dp).1 = none from hdp1]
        simp [SplitCursorState.consume_smaller]
      have hrec := nextStream_eq_merge nf fuel
        ⟨(sf sh).2, (sf dp).2, none, none, some CursorSource.shallow⟩ xs' []
        (Or.inl ⟨rfl, hsh2 x xs' rfl, rfl⟩) (by simp at hlen ⊢; omega)
      rw [traverseWith, hseek]
      simp only [hrec]
      simp [mergeEntries, mergeEntries_nil_right]
    | cons y ys' =>
      by_cases hxy : pathLe x.1 y.1 = true
      · have hseek : SplitCursorState.seekWith sf ⟨sh, dp, ps, pd, lc⟩
            = (some x, ⟨(sf sh).2, (sf dp).2, none, some y, some CursorSource.shallow⟩) := by
          simp only [SplitCursorState.seekWith]
          rw [show (sf sh).1 = some x from hsh1, show (sf dp).1 = some y from hdp1]
          simp [SplitCursorState.consume_smaller, hxy]
        have hrec := nextStream_eq_merge nf fuel
          ⟨(sf sh).2, (sf dp).2, none, some y, some CursorSource.shallow⟩ xs' (y :: ys')
          (Or.inl ⟨rfl, hsh2 x xs' rfl, ys', rfl, hdp2 y ys' rfl⟩)
          (by simp at hlen ⊢; omega)
        rw [traverseWith, hseek]
        simp only [hrec]
        simp [mergeEntries, hxy]
      · have hseek : SplitCursorState.seekWith sf ⟨sh, dp, ps, pd, lc⟩
            = (some y, ⟨(sf sh).2, (sf dp).2, some x, none, some CursorSource.deep⟩) := by
          simp only [SplitCursorState.seekWith]
          rw [show (sf sh).1 = some x from hsh1, show (sf dp).1 = some y from hdp1]
          simp [SplitCursorState.consume_smaller, hxy]
        have hrec := nextStream_eq_merge nf fuel
          ⟨(sf sh).2, (sf dp).2, some x, none, some CursorSource.deep⟩ (x :: xs') ys'
          (Or.inr ⟨rfl, ⟨xs', rfl, hsh2 x xs' rfl⟩, hdp2 y ys' rfl⟩)
          (by simp at hlen ⊢; omega)
        rw [traverseWith, hseek]
        simp only [hrec]
        simp [mergeEntries, hxy]

/-- Account instantiation: a full traversal from a fresh split account
cursor equals the merge of the two tables' suffixes at the lower bound. -/
theorem account_traverse_merge {N : Type} (S D : List (Nibbles × N)) (p : Nibbles)
    (hS : sortedTable S) (hD : sortedTable D) (fuel : Nat)
    (hfuel : S.length + D.length ≤ fuel + 1) :
    accountTraverse p (SplitAccountTrieCursor.new S D) fuel
      = mergeEntries (S.filter fun e => pathLe p e.1) (D.filter fun e => pathLe p e.1) := by
  apply traverse_eq_merge
  · show S[S.findIdx fun e => pathLe p e.1]? = _
    rw [sorted_filter_ge_eq_drop p S hS]
    exact (List.head?_drop S _).symm
  · intro e t ht
    rw [sorted_filter_ge_eq_drop p S hS] at ht
    apply cursor_yields
    have := List.tail_drop S (S.findIdx fun e => pathLe p e.1)
    rw [ht] at this
    exact this.symm
  · show D[D.findIdx fun e => pathLe p e.1]? = _
    rw [sorted_filter_ge_eq_drop p D hD]
    exact (List.head?_drop D _).symm
  · intro e t ht
    rw [sorted_filter_ge_eq_drop p D hD] at ht
    apply cursor_yields
    have := List.tail_drop D (D.findIdx fun e => pathLe p e.1)
    rw [ht] at this
    exact this.symm
  · have h1 : (S.filter fun e => pathLe p e.1).length ≤ S.length := List.length_filter_le _ _
    have h2 : (D.filter fun e => pathLe p e.1).length ≤ D.length := List.length_filter_le _ _
    omega

/-- Storage instantiation: a full traversal from a fresh split storage
cursor bound to `H` equals the merge of the two tables' duplicate-list
suffixes at the lower bound. -/
theorem storage_traverse_merge {N : Type} (sdb ddb : B256 → List (Nibbles × N))
    (H : B256) (p : Nibbles)
    (hS : sortedTable (sdb H)) (hD : sortedTable (ddb H)) (fuel : Nat)
    (hfuel : (sdb H).length + (ddb H).length ≤ fuel + 1) :
    storageTraverse p (SplitStorageTrieCursor.new sdb ddb H) fuel
      = mergeEntries ((sdb H).filter fun e => pathLe p e.1)
          ((ddb H).filter fun e => pathLe p e.1) := by
  apply traverse_eq_merge
  · show (sdb H)[(sdb H).findIdx fun e => pathLe p e.1]? = _
    rw [sorted_filter_ge_eq_drop p (sdb H) hS]
    exact (List.head?_drop (sdb H) _).symm
  · intro e t ht
    rw [sorted_filter_ge_eq_drop p (sdb H) hS] at ht
    apply adapter_yields
    have := List.tail_drop (sdb H) ((sdb H).findIdx fun e => pathLe p e.1)
    rw [ht] at this
    exact this.symm
  · show (ddb H)[(ddb H).findIdx fun e => pathLe p e.1]? = _
    rw [sorted_filter_ge_eq_drop p (ddb H) hD]
    exact (List.head?_drop (ddb H) _).symm
  · intro e t ht
    rw [sorted_filter_ge_eq_drop p (ddb H) hD] at ht
    apply adapter_yields
    have := List.tail_drop (ddb H) ((ddb H).findIdx fun e => pathLe p e.1)
    rw [ht] at this
    exact this.symm
  · have h1 : ((sdb H).filter fun e => pathLe p e.1).length ≤ (sdb H).length :=
      List.length_filter_le _ _
    have h2 : ((ddb H).filter fun e => pathLe p e.1).length ≤ (ddb H).length :=
      List.length_filter_le _ _
    omega

/-- Claim C1: for every pair of sorted, depth-partitioned underlying
tables and every path, `seek` on a split cursor (account or storage)
followed by repeated `next()` until none yields exactly the entries of the
sorted union of the shallow and deep streams whose paths are at least the
sought path, in strictly ascending path order, with no stored entry in
that range skipped or duplicated. -/
theorem c1_seek_next_traversal_sorted_merge {N : Type}
    (S D : List (Nibbles × N)) (p : Nibbles)
    (hS : sortedTable S) (hD : sortedTable D)
    (hSd : ∀ e ∈ S, e.1.length ≤ SHALLOW_TRIE_DEPTH)
    (hDd : ∀ e ∈ D, SHALLOW_TRIE_DEPTH < e.1.length)
    (sdb ddb : B256 → List (Nibbles × N)) (H : B256) (q : Nibbles)
    (hsdb : sortedTable (sdb H)) (hddb : sortedTable (ddb H))
    (hsd : ∀ e ∈ sdb H, e.1.length ≤ SHALLOW_TRIE_DEPTH)
    (hdd : ∀ e ∈ ddb H, SHALLOW_TRIE_DEPTH < e.1.length) :
    (accountTraverse p (SplitAccountTrieCursor.new S D) (S.length + D.length)
        = mergeEntries (S.filter fun e => pathLe p e.1) (D.filter fun e => pathLe p e.1)
      ∧ sortedTable (accountTraverse p (SplitAccountTrieCursor.new S D) (S.length + D.length))
      ∧ (∀ e, e ∈ accountTraverse p (SplitAccountTrieCursor.new S D) (S.length + D.length)
          ↔ ((e ∈ S ∨ e ∈ D) ∧ pathLe p e.1 = true)))
    ∧ (storageTraverse q (SplitStorageTrieCursor.new sdb ddb H)
          ((sdb H).length + (ddb H).length)
        = mergeEntries ((sdb H).filter fun e => pathLe q e.1)
            ((ddb H).filter fun e => pathLe q e.1)
      ∧ sortedTable (storageTraverse q (SplitStorageTrieCursor.new sdb ddb H)
          ((sdb H).length + (ddb H).length))
      ∧ (∀ e, e ∈ storageTraverse q (SplitStorageTrieCursor.new sdb ddb H)
            ((sdb H).length + (ddb H).length)
          ↔ ((e ∈ sdb H ∨ e ∈ ddb H) ∧ pathLe q e.1 = true))) := by
  have hmA := account_traverse_merge S D p hS hD (S.length + D.length) (by omega)
  have hmS := storage_traverse_merge sdb ddb H q hsdb hddb
    ((sdb H).length + (ddb H).length) (by omega)
  have hdisA : ∀ a ∈ S.filter (fun e => pathLe p e.1),
      ∀ b ∈ D.filter (fun e => pathLe p e.1), a.1 ≠ b.1 := by
    intro a ha b hb he
    have h1 := hSd a (List.mem_filter.mp ha).1
    have h2 := hDd b (List.mem_filter.mp hb).1
    rw [he] at h1
    omega
  have hdisS : ∀ a ∈ (sdb H).filter (fun e => pathLe q e.1),
      ∀ b ∈ (ddb H).filter (fun e => pathLe q e.1), a.1 ≠ b.1 := by
    intro a ha b hb he
    have h1 := hsd a (List.mem_filter.mp ha).1
    have h2 := hdd b (List.mem_filter.mp hb).1
    rw [he] at h1
    omega
  refine ⟨⟨hmA, ?_, ?_⟩, hmS, ?_, ?_⟩
  · rw [hmA]
    exact sorted_mergeEntries _ (hS.filter _) _ (hD.filter _) hdisA
  · intro e
    rw [hmA, mem_mergeEntries, List.mem_filter, List.mem_filter]
    tauto
  · rw [hmS]
    exact sorted_mergeEntries _ (hsdb.filter _) _ (hddb.filter _) hdisS
  · intro e
    rw [hmS, mem_mergeEntries, List.mem_filter, List.mem_filter]
    tauto

/-- Witness for C1 at the spec's concrete merge scenario: shallow paths
[1], [3], [5] and deep paths [2,0,0,0,0,0], [4,0,0,0,0,0] traverse as five
entries in ascending order. -/
theorem c1_seek_next_traversal_sorted_merge_witness :
    accountTraverse [] (SplitAccountTrieCursor.new
        [([1], 0), ([3], 0), ([5], 0)]
        [([2, 0, 0, 0, 0, 0], 1), ([4, 0, 0, 0, 0, 0], 1)]) 5
      = [([1], 0), ([2, 0, 0, 0, 0, 0], 1), ([3], 0), ([4, 0, 0, 0, 0, 0], 1), ([5], 0)] :=
  (c1_seek_next_traversal_sorted_merge
      [([1], 0), ([3], 0), ([5], 0)] [([2, 0, 0, 0, 0, 0], 1), ([4, 0, 0, 0, 0, 0], 1)] []
      (by decide) (by decide) (by decide) (by decide)
      (fun h => if h = 0 then [([1], 0), ([3], 0)] else [])
      (fun h => if h = 0 then [([2, 0, 0, 0, 0, 0], 1)] else []) 0 []
      (by decide) (by decide) (by decide) (by decide)).1.1.trans
    (by simp [mergeEntries, pathLe])

/-- Claim C2: `seek_exact(p)` on a split cursor (account or storage)
clears both pending slots, dispatches to exactly one underlying table
chosen by path depth — the shallow table iff `len(p) <= 5`, so a length-5
path queries the shallow table and a length-6 path the deep table — sets
`last_consumed` to the queried side, and returns that single table's
result without consulting (or disturbing) the other table's cursor. -/
theorem c2_seek_exact_dispatch_by_depth {N : Type} (st : SplitAccountTrieCursor N)
    (stS : SplitStorageTrieCursor N) (p : Nibbles) :
    ((SplitAccountTrieCursor.seek_exact p st).2.pending_shallow = none
    ∧ (SplitAccountTrieCursor.seek_exact p st).2.pending_deep = none
    ∧ (p.length ≤ SHALLOW_TRIE_DEPTH →
        (SplitAccountTrieCursor.seek_exact p st).2.last_consumed = some CursorSource.shallow
        ∧ (SplitAccountTrieCursor.seek_exact p st).1 = (Cursor.seekExact p st.shallow).1
        ∧ (SplitAccountTrieCursor.seek_exact p st).2.shallow = (Cursor.seekExact p st.shallow).2
        ∧ (SplitAccountTrieCursor.seek_exact p st).2.deep = st.deep)
    ∧ (¬ p.length ≤ SHALLOW_TRIE_DEPTH →
        (SplitAccountTrieCursor.seek_exact p st).2.last_consumed = some CursorSource.deep
        ∧ (SplitAccountTrieCursor.seek_exact p st).1 = (Cursor.seekExact p st.deep).1
        ∧ (SplitAccountTrieCursor.seek_exact p st).2.deep = (Cursor.seekExact p st.deep).2
        ∧ (SplitAccountTrieCursor.seek_exact p st).2.shallow = st.shallow)
    ∧ (p.length = 5 →
        (SplitAccountTrieCursor.seek_exact p st).2.last_consumed = some CursorSource.shallow)
    ∧ (p.length = 6 →
        (SplitAccountTrieCursor.seek_exact p st).2.last_consumed = some CursorSource.deep))
    ∧ ((SplitStorageTrieCursor.seek_exact p stS).2.pending_shallow = none
    ∧ (SplitStorageTrieCursor.seek_exact p stS).2.pending_deep = none
    ∧ (p.length ≤ SHALLOW_TRIE_DEPTH →
        (SplitStorageTrieCursor.seek_exact p stS).2.last_consumed = some CursorSource.shallow
        ∧ (SplitStorageTrieCursor.seek_exact p stS).1 = (StorageAdapter.seekExact p stS.shallow).1
        ∧ (SplitStorageTrieCursor.seek_exact p stS).2.deep = stS.deep)
    ∧ (¬ p.length ≤ SHALLOW_TRIE_DEPTH →
        (SplitStorageTrieCursor.seek_exact p stS).2.last_consumed = some CursorSource.deep
        ∧ (SplitStorageTrieCursor.seek_exact p stS).1 = (StorageAdapter.seekExact p stS.deep).1
        ∧ (SplitStorageTrieCursor.seek_exact p stS).2.shallow = stS.shallow)) := by
  obtain ⟨sh, dp, ps, pd, lc⟩ := st
  obtain ⟨shS, dpS, psS, pdS, lcS⟩ := stS
  refine ⟨⟨?_, ?_, ?_, ?_, ?_, ?_⟩, ?_, ?_, ?_, ?_⟩
  · by_cases hp : p.length ≤ SHALLOW_TRIE_DEPTH <;>
      simp [SplitAccountTrieCursor.seek_exact, SplitCursorState.seekExactWith, hp]
  · by_cases hp : p.length ≤ SHALLOW_TRIE_DEPTH <;>
      simp [SplitAccountTrieCursor.seek_exact, SplitCursorState.seekExactWith, hp]
  · intro hp
    simp [SplitAccountTrieCursor.seek_exact, SplitCursorState.seekExactWith, hp]
  · intro hp
    simp [SplitAccountTrieCursor.seek_exact, SplitCursorState.seekExactWith, hp]
  · intro h5
    simp [SplitAccountTrieCursor.seek_exact, SplitCursorState.seekExactWith,
      SHALLOW_TRIE_DEPTH, h5]
  · intro h6
    simp [SplitAccountTrieCursor.seek_exact, SplitCursorState.seekExactWith,
      SHALLOW_TRIE_DEPTH, h6]
  · by_cases hp : p.length ≤ SHALLOW_TRIE_DEPTH <;>
      simp [SplitStorageTrieCursor.seek_exact, SplitCursorState.seekExactWith, hp]
  · by_cases hp : p.length ≤ SHALLOW_TRIE_DEPTH <;>
      simp [SplitStorageTrieCursor.seek_exact, SplitCursorState.seekExactWith, hp]
  · intro hp
    simp [SplitStorageTrieCursor.seek_exact, SplitCursorState.seekExactWith, hp]
  · intro hp
    simp [SplitStorageTrieCursor.seek_exact, SplitCursorState.seekExactWith, hp]

/-- Claim C9: whenever both pending slots are occupied and their paths
compare equal, `consume_smaller` consumes the shallow entry and sets
`last_consumed` to `Shallow` — a deterministic tie-break in favour of the
shallow side (the same code runs in both split cursors). -/
theorem c9_consume_smaller_tie_shallow_wins {σ N : Type} (st : SplitCursorState σ N)
    (p : Nibbles) (ns nd : N)
    (hs : st.pending_shallow = some (p, ns)) (hd : st.pending_deep = some (p, nd)) :
    SplitCursorState.consume_smaller st
      = (some (p, ns),
        ⟨st.shallow, st.deep, none, some (p, nd), some CursorSource.shallow⟩) := by
  obtain ⟨sh, dp, ps, pd, lc⟩ := st
  simp only at hs hd
  subst hs; subst hd
  simp [SplitCursorState.consume_smaller, pathLe_refl]

/-- Witness for C9: equal pending paths [1] on both sides; the shallow
entry is consumed. -/
theorem c9_consume_smaller_tie_shallow_wins_witness :
    SplitCursorState.consume_smaller
        (⟨⟨[], none⟩, ⟨[], none⟩, some ([1], 0), some ([1], 1), none⟩
          : SplitCursorState (Cursor Nat) Nat)
      = (some ([1], 0),
        ⟨⟨[], none⟩, ⟨[], none⟩, none, some ([1], 1), some CursorSource.shallow⟩) :=
  c9_consume_smaller_tie_shallow_wins _ [1] 0 1 rfl rfl

/-- Claim C10: `consume_smaller` never discards a buffered entry — it
removes and returns only the consumed slot's entry, leaves the other
pending slot and both underlying cursors unchanged, returns none exactly
when both pending slots are empty, and afterwards `last_consumed` is none
exactly when none was returned. -/
theorem c10_consume_smaller_frame {σ N : Type} (st : SplitCursorState σ N) :
    ((SplitCursorState.consume_smaller st).2.shallow = st.shallow)
    ∧ ((SplitCursorState.consume_smaller st).2.deep = st.deep)
    ∧ ((SplitCursorState.consume_smaller st).1 = none
        ↔ st.pending_shallow = none ∧ st.pending_deep = none)
    ∧ ((SplitCursorState.consume_smaller st).2.last_consumed = none
        ↔ (SplitCursorState.consume_smaller st).1 = none)
    ∧ (((SplitCursorState.consume_smaller st).1 = none
        ∧ (SplitCursorState.consume_smaller st).2.pending_shallow = st.pending_shallow
        ∧ (SplitCursorState.consume_smaller st).2.pending_deep = st.pending_deep)
      ∨ ((SplitCursorState.consume_smaller st).1 = st.pending_shallow
        ∧ (SplitCursorState.consume_smaller st).2.pending_shallow = none
        ∧ (SplitCursorState.consume_smaller st).2.pending_deep = st.pending_deep
        ∧ (SplitCursorState.consume_smaller st).2.last_consumed = some CursorSource.shallow)
      ∨ ((SplitCursorState.consume_smaller st).1 = st.pending_deep
        ∧ (SplitCursorState.consume_smaller st).2.pending_deep = none
        ∧ (SplitCursorState.consume_smaller st).2.pending_shallow = st.pending_shallow
        ∧ (SplitCursorState.consume_smaller st).2.last_consumed = some CursorSource.deep)) := by
  obtain ⟨sh, dp, ps, pd, lc⟩ := st
  cases ps with
  | none =>
    cases pd with
    | none => simp [SplitCursorState.consume_smaller]
    | some d => simp [SplitCursorState.consume_smaller]
  | some s =>
    cases pd with
    | none => simp [SplitCursorState.consume_smaller]
    | some d =>
      by_cases hxy : pathLe s.1 d.1 = true
      · simp [SplitCursorState.consume_smaller, hxy]
      · simp [SplitCursorState.consume_smaller, hxy]

/-- Claim C8: `current()` on a split cursor (account or storage) returns
the current path of whichever underlying side was last consumed, and none
if none has been consumed; after a `seek` that returned an entry, it
returns that entry's path. -/
theorem c8_current_reports_last_consumed_side {N : Type}
    (st : SplitAccountTrieCursor N) (stS : SplitStorageTrieCursor N) (p : Nibbles) :
    (st.last_consumed = none → SplitAccountTrieCursor.current st = none)
    ∧ (st.last_consumed = some CursorSource.shallow →
        SplitAccountTrieCursor.current st = Cursor.current st.shallow)
    ∧ (st.last_consumed = some CursorSource.deep →
        SplitAccountTrieCursor.current st = Cursor.current st.deep)
    ∧ (stS.last_consumed = none → SplitStorageTrieCursor.current stS = none)
    ∧ (stS.last_consumed = some CursorSource.shallow →
        SplitStorageTrieCursor.current stS = StorageAdapter.current stS.shallow)
    ∧ (stS.last_consumed = some CursorSource.deep →
        SplitStorageTrieCursor.current stS = StorageAdapter.current stS.deep)
    ∧ (∀ e st', SplitAccountTrieCursor.seek p st = (some e, st') →
        SplitAccountTrieCursor.current st' = some e.1) := by
  obtain ⟨sh, dp, ps, pd, lc⟩ := st
  obtain ⟨shS, dpS, psS, pdS, lcS⟩ := stS
  refine ⟨?_, ?_, ?_, ?_, ?_, ?_, ?_⟩
  · intro h; simp only at h; subst h
    simp [SplitAccountTrieCursor.current, SplitCursorState.currentWith]
  · intro h; simp only at h; subst h
    simp [SplitAccountTrieCursor.current, SplitCursorState.currentWith]
  · intro h; simp only at h; subst h
    simp [SplitAccountTrieCursor.current, SplitCursorState.currentWith]
  · intro h; simp only at h; subst h
    simp [SplitStorageTrieCursor.current, SplitCursorState.currentWith]
  · intro h; simp only at h; subst h
    simp [SplitStorageTrieCursor.current, SplitCursorState.currentWith]
  · intro h; simp only at h; subst h
    simp [SplitStorageTrieCursor.current, SplitCursorState.currentWith]
  · intro e st' h
    obtain ⟨S, sp⟩ := sh
    obtain ⟨D, dq⟩ := dp
    simp only [SplitAccountTrieCursor.seek, SplitCursorState.seekWith, Cursor.seek] at h
    rcases hS : S[S.findIdx fun e => pathLe p e.1]? with _ | s <;>
      rcases hD : D[D.findIdx fun e => pathLe p e.1]? with _ | d <;>
        rw [hS, hD] at h <;>
          simp only [SplitCursorState.consume_smaller] at h
    · injection h with h1 h2
      simp at h1
    · injection h with h1 h2
      injection h1 with h1
      subst h1
      subst h2
      simp [SplitAccountTrieCursor.current, SplitCursorState.currentWith, Cursor.current, hD]
    · injection h with h1 h2
      injection h1 with h1
      subst h1
      subst h2
      simp [SplitAccountTrieCursor.current, SplitCursorState.currentWith, Cursor.current, hS]
    · by_cases hxy : pathLe s.1 d.1 = true
      · rw [if_pos hxy] at h
        injection h with h1 h2
        injection h1 with h1
        subst h1
        subst h2
        simp [SplitAccountTrieCursor.current, SplitCursorState.currentWith, Cursor.current, hS]
      · rw [if_neg hxy] at h
        injection h with h1 h2
        injection h1 with h1
        subst h1
        subst h2
        simp [SplitAccountTrieCursor.current, SplitCursorState.currentWith, Cursor.current, hD]

/-!
## Write routing (`src/reth-shallow-trie/src/write_routing.rs`)

Database writes are modelled by their effect on table contents:
`seek_exact` + `delete_current` becomes a conditional erase of the exact
key, `upsert` on the plain account table replaces the value at the key
(inserting in order), and `upsert` on a duplicate table inserts the entry
in sub-key order.
-/

/-- Effect of `upsert(p, node)` on a plain ordered table: replace the
entry at `p`, or insert it at its ordered position. -/
def upsertEntry {N : Type} (p : Nibbles) (node : N) : List (Nibbles × N) → List (Nibbles × N)
  | [] => [(p, node)]
  | e :: rest =>
    if pathLt p e.1 then (p, node) :: e :: rest
    else if e.1 = p then (p, node) :: rest
    else e :: upsertEntry p node rest

/-- One account-table update step: if a prior entry at `p` exists
(`seek_exact(p)` hits), delete it; then, for an upsert, write the new
node.  Mirrors the per-entry block of `write_account_trie_updates_split`. -/
def routeEntry {N : Type} (p : Nibbles) (maybe_node : Option N) (t : List (Nibbles × N)) :
    List (Nibbles × N) :=
  let t1 := if (t.find? fun e => decide (e.1 = p)).isSome
    then t.eraseP (fun e => decide (e.1 = p)) else t
  match maybe_node with
  | some node => upsertEntry p node t1
  | none => t1

/-- `write_account_trie_updates_split`: route each non-empty-path update
to the table selected by its depth, skipping empty paths; returns the two
tables and the number of entries processed. -/
def write_account_trie_updates_split {N : Type} :
    List (Nibbles × Option N) → List (Nibbles × N) → List (Nibbles × N) →
      List (Nibbles × N) × List (Nibbles × N) × Nat
  | [], shallow, deep => (shallow, deep, 0)
  | (nibbles, maybe_node) :: rest, shallow, deep =>
    if nibbles.isEmpty then
      write_account_trie_updates_split rest shallow deep
    else if nibbles.length ≤ SHALLOW_TRIE_DEPTH then
      let r := write_account_trie_updates_split rest (routeEntry nibbles maybe_node shallow) deep
      (r.1, r.2.1, r.2.2 + 1)
    else
      let r := write_account_trie_updates_split rest shallow (routeEntry nibbles maybe_node deep)
      (r.1, r.2.1, r.2.2 + 1)

/-- Effect of `delete_current_duplicates` at key `h`: all duplicates under
`h` are removed. -/
def clearDuplicates {N : Type} (h : B256) (db : B256 → List (Nibbles × N)) :
    B256 → List (Nibbles × N) :=
  fun h' => if h' = h then [] else db h'

/-- Duplicate-table exact delete: `seek_by_key_subkey(h, p)` finds the
lower-bound duplicate; if its sub-key equals `p`, `delete_current`
removes it. -/
def dupDeleteExact {N : Type} (p : Nibbles) (dups : List (Nibbles × N)) :
    List (Nibbles × N) :=
  let i := dups.findIdx fun e => pathLe p e.1
  match dups[i]? with
  | some e => if e.1 = p then dups.eraseIdx i else dups
  | none => dups

/-- Effect of a duplicate-table `upsert`: insert the entry in sub-key
order (the preceding exact delete is what prevents duplicates). -/
def dupUpsert {N : Type} (p : Nibbles) (node : N) : List (Nibbles × N) → List (Nibbles × N)
  | [] => [(p, node)]
  | e :: rest => if pathLe e.1 p then e :: dupUpsert p node rest else (p, node) :: e :: rest

/-- One storage-table update step at the bound hash: exact-delete then,
for an upsert, insert.  Mirrors the per-entry block of
`write_storage_trie_updates_split`. -/
def routeStorageEntry {N : Type} (hashed_address : B256) (p : Nibbles)
    (maybe_node : Option N) (db : B256 → List (Nibbles × N)) : B256 → List (Nibbles × N) :=
  fun h' =>
    if h' = hashed_address then
      let dups := dupDeleteExact p (db hashed_address)
      match maybe_node with
      | some node => dupUpsert p node dups
      | none => dups
    else db h'

/-- The per-entry loop of `write_storage_trie_updates_split` (the update
list is already filtered to non-empty paths, as the Rust iterator is). -/
def write_storage_trie_updates_entries {N : Type} (hashed_address : B256) :
    List (Nibbles × Option N) → (B256 → List (Nibbles × N)) → (B256 → List (Nibbles × N)) →
      (B256 → List (Nibbles × N)) × (B256 → List (Nibbles × N)) × Nat
  | [], sdb, ddb => (sdb, ddb, 0)
  | (nibbles, maybe_node) :: rest, sdb, ddb =>
    if nibbles.length ≤ SHALLOW_TRIE_DEPTH then
      let r := write_storage_trie_updates_entries hashed_address rest
        (routeStorageEntry hashed_address nibbles maybe_node sdb) ddb
      (r.1, r.2.1, r.2.2 + 1)
    else
      let r := write_storage_trie_updates_entries hashed_address rest sdb
        (routeStorageEntry hashed_address nibbles maybe_node ddb)
      (r.1, r.2.1, r.2.2 + 1)

/-- `write_storage_trie_updates_split`: when the batch is marked deleted,
first clear all duplicates at the hash on both tables (each guarded by a
`seek_exact` hit, as in the code), then route the non-empty-path
entries. -/
def write_storage_trie_updates_split {N : Type} (hashed_address : B256) (deleted : Bool)
    (storage_nodes : List (Nibbles × Option N)) (sdb ddb : B256 → List (Nibbles × N)) :
    (B256 → List (Nibbles × N)) × (B256 → List (Nibbles × N)) × Nat :=
  let sdb1 := if deleted then
      (if (sdb hashed_address).isEmpty then sdb else clearDuplicates hashed_address sdb)
    else sdb
  let ddb1 := if deleted then
      (if (ddb hashed_address).isEmpty then ddb else clearDuplicates hashed_address ddb)
    else ddb
  write_storage_trie_updates_entries hashed_address
    (storage_nodes.filter fun u => !u.1.isEmpty) sdb1 ddb1

/-- A table already empty at `h` is unchanged by `clearDuplicates h`. -/
theorem clearDuplicates_of_isEmpty {N : Type} (h : B256) (db : B256 → List (Nibbles × N))
    (he : (db h).isEmpty = true) : db = clearDuplicates h db := by
  funext h'
  unfold clearDuplicates
  by_cases hh : h' = h
  · subst hh
    rw [if_pos rfl]
    exact List.isEmpty_iff.mp he
  · rw [if_neg hh]

/-- Claim C5: when a storage update batch carries the
whole-storage-trie-deleted flag, `write_storage_trie_updates_split`
removes every duplicate stored under the given hash from both the shallow
and the deep table, and does so before any individual entry of the same
batch is applied: the run factors through the per-entry loop started on
the two cleared tables (which hold nothing under the hash). -/
theorem c5_whole_storage_delete_clears_both_tables_first {N : Type}
    (hashed_address : B256) (storage_nodes : List (Nibbles × Option N))
    (sdb ddb : B256 → List (Nibbles × N)) :
    write_storage_trie_updates_split hashed_address true storage_nodes sdb ddb
      = write_storage_trie_updates_entries hashed_address
          (storage_nodes.filter fun u => !u.1.isEmpty)
          (clearDuplicates hashed_address sdb) (clearDuplicates hashed_address ddb)
    ∧ clearDuplicates hashed_address sdb hashed_address = []
    ∧ clearDuplicates hashed_address ddb hashed_address = []
    ∧ (write_storage_trie_updates_split hashed_address true [] sdb ddb).1 hashed_address = []
    ∧ (write_storage_trie_updates_split hashed_address true [] sdb ddb).2.1
        hashed_address = [] := by
  have hs1 : (if (sdb hashed_address).isEmpty then sdb
      else clearDuplicates hashed_address sdb) = clearDuplicates hashed_address sdb := by
    by_cases he : (sdb hashed_address).isEmpty = true
    · rw [if_pos he]
      exact clearDuplicates_of_isEmpty hashed_address sdb he
    · rw [if_neg he]
  have hd1 : (if (ddb hashed_address).isEmpty then ddb
      else clearDuplicates hashed_address ddb) = clearDuplicates hashed_address ddb := by
    by_cases he : (ddb hashed_address).isEmpty = true
    · rw [if_pos he]
      exact clearDuplicates_of_isEmpty hashed_address ddb he
    · rw [if_neg he]
  have hmain : ∀ (ns : List (Nibbles × Option N)),
      write_storage_trie_updates_split hashed_address true ns sdb ddb
        = write_storage_trie_updates_entries hashed_address
            (ns.filter fun u => !u.1.isEmpty)
            (clearDuplicates hashed_address sdb) (clearDuplicates hashed_address ddb) := by
    intro ns
    unfold write_storage_trie_updates_split
    rw [if_pos rfl, if_pos rfl, hs1, hd1]
  refine ⟨hmain storage_nodes, by simp [clearDuplicates], by simp [clearDuplicates], ?_, ?_⟩
  · rw [hmain []]
    simp [write_storage_trie_updates_entries, clearDuplicates]
  · rw [hmain []]
    simp [write_storage_trie_updates_entries, clearDuplicates]

/-- The account router's count equals the number of non-empty-path
entries. -/
theorem write_account_count {N : Type} :
    ∀ (updates : List (Nibbles × Option N)) (s d : List (Nibbles × N)),
      (write_account_trie_updates_split updates s d).2.2
        = (updates.filter fun u => !u.1.isEmpty).length := by
  intro updates
  induction updates with
  | nil => intro s d; rfl
  | cons u rest ih =>
    intro s d
    obtain ⟨p, mn⟩ := u
    cases hp : p.isEmpty with
    | true =>
      simp [write_account_trie_updates_split, hp, ih]
    | false =>
      by_cases hl : p.length ≤ SHALLOW_TRIE_DEPTH
      · simp [write_account_trie_updates_split, hp, hl, ih]
      · simp [write_account_trie_updates_split, hp, hl, ih]

/-- Empty-path account updates are no-ops: the run equals the run on the
filtered update list. -/
theorem write_account_skip_empty {N : Type} :
    ∀ (updates : List (Nibbles × Option N)) (s d : List (Nibbles × N)),
      write_account_trie_updates_split updates s d
        = write_account_trie_updates_split (updates.filter fun u => !u.1.isEmpty) s d := by
  intro updates
  induction updates with
  | nil => intro s d; rfl
  | cons u rest ih =>
    intro s d
    obtain ⟨p, mn⟩ := u
    cases hp : p.isEmpty with
    | true =>
      simp only [List.filter_cons, hp, Bool.not_true]
      simp only [write_account_trie_updates_split, hp, if_true]
      exact ih s d
    | false =>
      simp only [List.filter_cons, hp, Bool.not_false]
      by_cases hl : p.length ≤ SHALLOW_TRIE_DEPTH
      · simp only [write_account_trie_updates_split, hp, hl, if_true, if_false,
          Bool.false_eq_true, ite_false, ite_true]
        rw [ih]
      · simp only [write_account_trie_updates_split, hp, hl, if_false,
          Bool.false_eq_true, ite_false, ite_true]
        rw [ih]

/-- The storage per-entry loop counts every entry it is handed. -/
theorem write_storage_entries_count {N : Type} (hashed_address : B256) :
    ∀ (nodes : List (Nibbles × Option N)) (sdb ddb : B256 → List (Nibbles × N)),
      (write_storage_trie_updates_entries hashed_address nodes sdb ddb).2.2
        = nodes.length := by
  intro nodes
  induction nodes with
  | nil => intro sdb ddb; rfl
  | cons u rest ih =>
    intro sdb ddb
    obtain ⟨p, mn⟩ := u
    by_cases hl : p.length ≤ SHALLOW_TRIE_DEPTH
    · simp [write_storage_trie_updates_entries, hl, ih]
    · simp [write_storage_trie_updates_entries, hl, ih]

/-- Claim C6: both write routers skip empty-path entries — such entries
modify no table and add nothing to the count — and on success return
exactly the number of update entries with non-empty paths, deletions
counted as well as upserts. -/
theorem c6_empty_paths_skipped_count_nonempty {N : Type}
    (updates : List (Nibbles × Option N)) (s d : List (Nibbles × N))
    (hashed_address : B256) (deleted : Bool) (nodes : List (Nibbles × Option N))
    (sdb ddb : B256 → List (Nibbles × N)) :
    ((write_account_trie_updates_split updates s d).2.2
        = (updates.filter fun u => !u.1.isEmpty).length)
    ∧ (write_account_trie_updates_split updates s d
        = write_account_trie_updates_split (updates.filter fun u => !u.1.isEmpty) s d)
    ∧ ((write_storage_trie_updates_split hashed_address deleted nodes sdb ddb).2.2
        = (nodes.filter fun u => !u.1.isEmpty).length)
    ∧ (write_storage_trie_updates_split hashed_address deleted nodes sdb ddb
        = write_storage_trie_updates_split hashed_address deleted
            (nodes.filter fun u => !u.1.isEmpty) sdb ddb) := by
  have hff : (nodes.filter fun u => !u.1.isEmpty).filter (fun u => !u.1.isEmpty)
      = nodes.filter fun u => !u.1.isEmpty := by
    rw [List.filter_filter]
    simp
  refine ⟨write_account_count updates s d, write_account_skip_empty updates s d, ?_, ?_⟩
  · unfold write_storage_trie_updates_split
    rw [write_storage_entries_count]
  · unfold write_storage_trie_updates_split
    rw [hff]

/-- After `upsertEntry p n`, an exact lookup of `p` finds the new entry. -/
theorem find_upsertEntry_self {N : Type} (p : Nibbles) (n : N) :
    ∀ t : List (Nibbles × N),
      (upsertEntry p n t).find? (fun e => decide (e.1 = p)) = some (p, n) := by
  intro t
  induction t with
  | nil => simp [upsertEntry]
  | cons e rest ih =>
    by_cases h1 : pathLt p e.1 = true
    · simp [upsertEntry, h1]
    · by_cases h2 : e.1 = p
      · simp [upsertEntry, h1, h2, pathLt_irrefl]
      · rw [show upsertEntry p n (e :: rest)
            = e :: upsertEntry p n rest by simp [upsertEntry, h1, h2, pathLt_irrefl]]
        rw [List.find?_cons_of_neg _ (by simp [h2])]
        exact ih

/-- `upsertEntry p n` leaves exact lookups of other keys unchanged. -/
theorem find_upsertEntry_other {N : Type} (p q : Nibbles) (n : N) (hpq : q ≠ p) :
    ∀ t : List (Nibbles × N),
      (upsertEntry p n t).find? (fun e => decide (e.1 = q))
        = t.find? (fun e => decide (e.1 = q)) := by
  intro t
  induction t with
  | nil =>
    have hqp : p ≠ q := Ne.symm hpq
    simp [upsertEntry, hqp]
  | cons e rest ih =>
    by_cases h1 : pathLt p e.1 = true
    · rw [show upsertEntry p n (e :: rest) = (p, n) :: e :: rest by simp [upsertEntry, h1]]
      rw [List.find?_cons_of_neg _ (by simp [Ne.symm hpq])]
    · by_cases h2 : e.1 = p
      · rw [show upsertEntry p n (e :: rest) = (p, n) :: rest by simp [upsertEntry, h1, h2, pathLt_irrefl]]
        rw [List.find?_cons_of_neg _ (by simp [Ne.symm hpq]),
          List.find?_cons_of_neg _ (by simp [h2, Ne.symm hpq])]
      · rw [show upsertEntry p n (e :: rest)
            = e :: upsertEntry p n rest by simp [upsertEntry, h1, h2, pathLt_irrefl]]
        by_cases h3 : e.1 = q
        · rw [List.find?_cons_of_pos _ (by simp [h3]), List.find?_cons_of_pos _ (by simp [h3])]
        · rw [List.find?_cons_of_neg _ (by simp [h3]), List.find?_cons_of_neg _ (by simp [h3])]
          exact ih

/-- Erasing key `p` leaves exact lookups of other keys unchanged. -/
theorem find_eraseP_other {N : Type} (p q : Nibbles) (hpq : q ≠ p) :
    ∀ t : List (Nibbles × N),
      (t.eraseP fun e => decide (e.1 = p)).find? (fun e => decide (e.1 = q))
        = t.find? (fun e => decide (e.1 = q)) := by
  intro t
  induction t with
  | nil => rfl
  | cons e rest ih =>
    by_cases h1 : e.1 = p
    · rw [show (e :: rest).eraseP (fun e => decide (e.1 = p)) = rest by
        simp [List.eraseP_cons, h1]]
      rw [List.find?_cons_of_neg _ (by simp [h1, Ne.symm hpq])]
    · rw [show (e :: rest).eraseP (fun e => decide (e.1 = p))
          = e :: rest.eraseP (fun e => decide (e.1 = p)) by simp [List.eraseP_cons, h1]]
      by_cases h3 : e.1 = q
      · rw [List.find?_cons_of_pos _ (by simp [h3]), List.find?_cons_of_pos _ (by simp [h3])]
      · rw [List.find?_cons_of_neg _ (by simp [h3]), List.find?_cons_of_neg _ (by simp [h3])]
        exact ih

/-- On a sorted table, after erasing key `p` an exact lookup of `p`
misses (distinct-keys invariant). -/
theorem find_eraseP_self {N : Type} (p : Nibbles) :
    ∀ t : List (Nibbles × N), sortedTable t →
      (t.eraseP fun e => decide (e.1 = p)).find? (fun e => decide (e.1 = p)) = none := by
  intro t
  induction t with
  | nil => intro _; rfl
  | cons e rest ih =>
    intro hs
    by_cases h1 : e.1 = p
    · rw [show (e :: rest).eraseP (fun e => decide (e.1 = p)) = rest by
        simp [List.eraseP_cons, h1]]
      apply List.find?_eq_none.mpr
      intro f hf
      have hlt : pathLt e.1 f.1 = true := (List.pairwise_cons.mp hs).1 f hf
      have : f.1 ≠ p := by rw [← h1]; exact fun hc => pathLt_ne hlt hc.symm
      simp [this]
    · rw [show (e :: rest).eraseP (fun e => decide (e.1 = p))
          = e :: rest.eraseP (fun e => decide (e.1 = p)) by simp [List.eraseP_cons, h1]]
      rw [List.find?_cons_of_neg _ (by simp [h1])]
      exact ih (List.pairwise_cons.mp hs).2

/-- Every entry of `upsertEntry p n t` is the new entry or one of `t`. -/
theorem mem_upsertEntry {N : Type} (p : Nibbles) (n : N) :
    ∀ (t : List (Nibbles × N)) (x : Nibbles × N),
      x ∈ upsertEntry p n t → x = (p, n) ∨ x ∈ t := by
  intro t
  induction t with
  | nil => intro x hx; simpa [upsertEntry] using hx
  | cons e rest ih =>
    intro x hx
    by_cases h1 : pathLt p e.1 = true
    · rw [show upsertEntry p n (e :: rest) = (p, n) :: e :: rest by
        simp [upsertEntry, h1]] at hx
      rcases List.mem_cons.mp hx with rfl | hx
      · exact Or.inl rfl
      · exact Or.inr hx
    · by_cases h2 : e.1 = p
      · rw [show upsertEntry p n (e :: rest) = (p, n) :: rest by
          simp [upsertEntry, h1, h2, pathLt_irrefl]] at hx
        rcases List.mem_cons.mp hx with rfl | hx
        · exact Or.inl rfl
        · exact Or.inr (List.mem_cons_of_mem e hx)
      · rw [show upsertEntry p n (e :: rest) = e :: upsertEntry p n rest by
          simp [upsertEntry, h1, h2, pathLt_irrefl]] at hx
        rcases List.mem_cons.mp hx with he | hx
        · rw [he]
          exact Or.inr (List.mem_cons_self e rest)
        · rcases ih x hx with h | h
          · exact Or.inl h
          · exact Or.inr (List.mem_cons_of_mem e h)

/-- `upsertEntry` preserves sortedness. -/
theorem sorted_upsertEntry {N : Type} (p : Nibbles) (n : N) :
    ∀ t : List (Nibbles × N), sortedTable t → sortedTable (upsertEntry p n t) := by
  intro t
  induction t with
  | nil => intro _; simp [upsertEntry, sortedTable]
  | cons e rest ih =>
    intro hs
    have hb := (List.pairwise_cons.mp hs).1
    have ht := (List.pairwise_cons.mp hs).2
    by_cases h1 : pathLt p e.1 = true
    · rw [show upsertEntry p n (e :: rest) = (p, n) :: e :: rest by simp [upsertEntry, h1]]
      apply List.pairwise_cons.mpr
      refine ⟨?_, hs⟩
      intro b hb2
      rcases List.mem_cons.mp hb2 with rfl | hb2
      · exact h1
      · exact pathLt_trans h1 (hb b hb2)
    · by_cases h2 : e.1 = p
      · rw [show upsertEntry p n (e :: rest) = (p, n) :: rest by simp [upsertEntry, h1, h2, pathLt_irrefl]]
        apply List.pairwise_cons.mpr
        refine ⟨?_, ht⟩
        intro b hb2
        rw [← h2]
        exact hb b hb2
      · rw [show upsertEntry p n (e :: rest) = e :: upsertEntry p n rest by
          simp [upsertEntry, h1, h2, pathLt_irrefl]]
        apply List.pairwise_cons.mpr
        refine ⟨?_, ih ht⟩
        intro b hb2
        rcases mem_upsertEntry p n rest b hb2 with rfl | hb2
        · have hle : pathLe e.1 p = true := by
            simp only [pathLt, Bool.not_eq_true, Bool.not_eq_true'] at h1
            simpa using h1
          exact pathLt_of_le_of_ne hle h2
        · exact hb b hb2

/-- `routeEntry` preserves sortedness. -/
theorem sorted_routeEntry {N : Type} (p : Nibbles) (mn : Option N)
    (t : List (Nibbles × N)) (hs : sortedTable t) : sortedTable (routeEntry p mn t) := by
  have h1 : sortedTable (if (t.find? fun e => decide (e.1 = p)).isSome
      then t.eraseP (fun e => decide (e.1 = p)) else t) := by
    by_cases hf : (t.find? fun e => decide (e.1 = p)).isSome
    · rw [if_pos hf]
      exact hs.sublist (List.eraseP_sublist t)
    · rw [if_neg hf]
      exact hs
  unfold routeEntry
  cases mn with
  | none => exact h1
  | some node => exact sorted_upsertEntry p node _ h1

/-- On a sorted table, an update at `p` makes the exact lookup of `p`
return exactly the new value (or miss, for a deletion). -/
theorem find_routeEntry_self {N : Type} (p : Nibbles) (mn : Option N)
    (t : List (Nibbles × N)) (hs : sortedTable t) :
    (routeEntry p mn t).find? (fun e => decide (e.1 = p)) = mn.map fun n => (p, n) := by
  unfold routeEntry
  cases mn with
  | some node => exact find_upsertEntry_self p node _
  | none =>
    by_cases hf : (t.find? fun e => decide (e.1 = p)).isSome
    · rw [if_pos hf]
      exact find_eraseP_self p t hs
    · rw [if_neg hf]
      exact Option.not_isSome_iff_eq_none.mp hf

/-- An update at `p` does not change exact lookups of other keys. -/
theorem find_routeEntry_other {N : Type} (p q : Nibbles) (mn : Option N) (hpq : q ≠ p)
    (t : List (Nibbles × N)) :
    (routeEntry p mn t).find? (fun e => decide (e.1 = q))
      = t.find? (fun e => decide (e.1 = q)) := by
  unfold routeEntry
  have h1 : (if (t.find? fun e => decide (e.1 = p)).isSome
        then t.eraseP (fun e => decide (e.1 = p)) else t).find? (fun e => decide (e.1 = q))
      = t.find? (fun e => decide (e.1 = q)) := by
    by_cases hf : (t.find? fun e => decide (e.1 = p)).isSome
    · rw [if_pos hf]
      exact find_eraseP_other p q hpq t
    · rw [if_neg hf]
  cases mn with
  | none => exact h1
  | some node => rw [find_upsertEntry_other p q node hpq]; exact h1

/-- Updates whose keys differ from `P` preserve the exact lookup of `P`
on both routed tables. -/
theorem write_account_preserves_other {N : Type} (P : Nibbles) :
    ∀ (updates : List (Nibbles × Option N)) (s d : List (Nibbles × N)),
      (∀ u ∈ updates, u.1 ≠ P) →
      ((write_account_trie_updates_split updates s d).1.find? (fun e => decide (e.1 = P))
        = s.find? (fun e => decide (e.1 = P)))
      ∧ ((write_account_trie_updates_split updates s d).2.1.find? (fun e => decide (e.1 = P))
        = d.find? (fun e => decide (e.1 = P))) := by
  intro updates
  induction updates with
  | nil => intro s d _; exact ⟨rfl, rfl⟩
  | cons u rest ih =>
    intro s d hne
    obtain ⟨p, mn⟩ := u
    have hPp : P ≠ p := Ne.symm (hne (p, mn) (List.mem_cons_self _ _))
    have hrest : ∀ u ∈ rest, u.1 ≠ P := fun u hu => hne u (List.mem_cons_of_mem _ hu)
    cases hp : p.isEmpty with
    | true =>
      simp only [write_account_trie_updates_split, hp, if_true]
      exact ih s d hrest
    | false =>
      by_cases hl : p.length ≤ SHALLOW_TRIE_DEPTH
      · simp only [write_account_trie_updates_split, hp, Bool.false_eq_true, if_false,
          hl, if_true]
        refine ⟨?_, (ih (routeEntry p mn s) d hrest).2⟩
        rw [(ih (routeEntry p mn s) d hrest).1, find_routeEntry_other p P mn hPp]
      · simp only [write_account_trie_updates_split, hp, Bool.false_eq_true, if_false,
          hl, if_true]
        refine ⟨(ih s (routeEntry p mn d) hrest).1, ?_⟩
        rw [(ih s (routeEntry p mn d) hrest).2, find_routeEntry_other p P mn hPp]

/-- The account router preserves sortedness of both tables. -/
theorem write_account_sorted {N : Type} :
    ∀ (updates : List (Nibbles × Option N)) (s d : List (Nibbles × N)),
      sortedTable s → sortedTable d →
      sortedTable (write_account_trie_updates_split updates s d).1
      ∧ sortedTable (write_account_trie_updates_split updates s d).2.1 := by
  intro updates
  induction updates with
  | nil => intro s d hs hd; exact ⟨hs, hd⟩
  | cons u rest ih =>
    intro s d hs hd
    obtain ⟨p, mn⟩ := u
    cases hp : p.isEmpty with
    | true =>
      simp only [write_account_trie_updates_split, hp, if_true]
      exact ih s d hs hd
    | false =>
      by_cases hl : p.length ≤ SHALLOW_TRIE_DEPTH
      · simp only [write_account_trie_updates_split, hp, Bool.false_eq_true, if_false,
          hl, if_true]
        exact ih (routeEntry p mn s) d (sorted_routeEntry p mn s hs) hd
      · simp only [write_account_trie_updates_split, hp, Bool.false_eq_true, if_false,
          hl, if_true]
        exact ih s (routeEntry p mn d) hs (sorted_routeEntry p mn d hd)

/-- After the account router runs, the routed table's exact lookup of each
written key returns the written value (none for deletions). -/
theorem write_account_lookup {N : Type} :
    ∀ (updates : List (Nibbles × Option N)) (s d : List (Nibbles × N)),
      sortedTable s → sortedTable d →
      updates.Pairwise (fun a b => a.1 ≠ b.1) →
      ∀ (P : Nibbles) (mn : Option N), (P, mn) ∈ updates → P ≠ [] →
        (if P.length ≤ SHALLOW_TRIE_DEPTH
          then (write_account_trie_updates_split updates s d).1.find?
            (fun e => decide (e.1 = P))
          else (write_account_trie_updates_split updates s d).2.1.find?
            (fun e => decide (e.1 = P)))
        = mn.map fun n => (P, n) := by
  intro updates
  induction updates with
  | nil =>
    intro s d _ _ _ P mn hmem
    cases hmem
  | cons u rest ih =>
    intro s d hs hd hpw P mn hmem hP
    obtain ⟨p, mq⟩ := u
    rcases List.mem_cons.mp hmem with heq | hmem2
    · injection heq with h1 h2
      subst h1; subst h2
      have hpe : P.isEmpty = false := by
        cases P with
        | nil => exact absurd rfl hP
        | cons a as => rfl
      have hrest : ∀ u ∈ rest, u.1 ≠ P := by
        intro u hu
        exact Ne.symm ((List.pairwise_cons.mp hpw).1 u hu)
      by_cases hl : P.length ≤ SHALLOW_TRIE_DEPTH
      · rw [if_pos hl]
        simp only [write_account_trie_updates_split, hpe, Bool.false_eq_true, if_false,
          hl, if_true]
        rw [(write_account_preserves_other P rest (routeEntry P mn s) d hrest).1]
        exact find_routeEntry_self P mn s hs
      · rw [if_neg hl]
        simp only [write_account_trie_updates_split, hpe, Bool.false_eq_true, if_false,
          hl, if_true]
        rw [(write_account_preserves_other P rest s (routeEntry P mn d) hrest).2]
        exact find_routeEntry_self P mn d hd
    · have hpw2 := (List.pairwise_cons.mp hpw).2
      cases hp : p.isEmpty with
      | true =>
        simp only [write_account_trie_updates_split, hp, if_true]
        exact ih s d hs hd hpw2 P mn hmem2 hP
      | false =>
        by_cases hl : p.length ≤ SHALLOW_TRIE_DEPTH
        · simp only [write_account_trie_updates_split, hp, Bool.false_eq_true, if_false,
            hl, if_true]
          exact ih (routeEntry p mq s) d (sorted_routeEntry p mq s hs) hd hpw2 P mn hmem2 hP
        · simp only [write_account_trie_updates_split, hp, Bool.false_eq_true, if_false,
            hl, if_true]
          exact ih s (routeEntry p mq d) hs (sorted_routeEntry p mq d hd) hpw2 P mn hmem2 hP

/-- Claim C3: write-then-read round trip.  For every update entry
`(P, some n)` with non-empty `P` in a distinct-key batch applied by the
account write router, `seek_exact(P)` on a split cursor over the resulting
tables returns `(P, n)`; for every applied `(P, none)` it returns none. -/
theorem c3_write_then_seek_exact_round_trip {N : Type}
    (updates : List (Nibbles × Option N)) (s d : List (Nibbles × N))
    (hs : sortedTable s) (hd : sortedTable d)
    (hdk : updates.Pairwise fun a b => a.1 ≠ b.1) :
    ∀ (P : Nibbles) (mn : Option N), (P, mn) ∈ updates → P ≠ [] →
      (SplitAccountTrieCursor.seek_exact P
          (SplitAccountTrieCursor.new
            (write_account_trie_updates_split updates s d).1
            (write_account_trie_updates_split updates s d).2.1)).1
        = mn.map fun n => (P, n) := by
  intro P mn hmem hP
  have h := write_account_lookup updates s d hs hd hdk P mn hmem hP
  by_cases hl : P.length ≤ SHALLOW_TRIE_DEPTH
  · rw [if_pos hl] at h
    simpa [SplitAccountTrieCursor.seek_exact, SplitCursorState.seekExactWith,
      SplitAccountTrieCursor.new, Cursor.seekExact, hl] using h
  · rw [if_neg hl] at h
    simpa [SplitAccountTrieCursor.seek_exact, SplitCursorState.seekExactWith,
      SplitAccountTrieCursor.new, Cursor.seekExact, hl] using h

/-- Witness for C3: after writing [1] ↦ 7, [1,2,3,4,5,6] ↦ 8 and deleting
[2] into empty tables, `seek_exact` round-trips each entry. -/
theorem c3_write_then_seek_exact_round_trip_witness :
    (SplitAccountTrieCursor.seek_exact [1]
        (SplitAccountTrieCursor.new
          (write_account_trie_updates_split
            [([1], some 7), ([1, 2, 3, 4, 5, 6], some 8), ([2], none)]
            ([] : List (Nibbles × Nat)) []).1
          (write_account_trie_updates_split
            [([1], some 7), ([1, 2, 3, 4, 5, 6], some 8), ([2], none)]
            ([] : List (Nibbles × Nat)) []).2.1)).1
      = some ([1], 7) :=
  c3_write_then_seek_exact_round_trip
    [([1], some 7), ([1, 2, 3, 4, 5, 6], some 8), ([2], none)] [] []
    (by decide) (by decide) (by decide) [1] (some 7) (by decide) (by decide)

/-- Claim C4 (amended): `set_hashed_address(h')` re-binds both adapters'
account hash and clears the pending slots and `last_consumed`; after the
rebind, `current()` returns none, `seek` / `seek_exact` behave exactly as
on a freshly constructed cursor bound to `h'` over the same databases, and
consequently every traversal that begins with a `seek` (seek + repeated
`next()`) is identical to the same traversal on a fresh cursor bound to
`h'` — by the C1 storage theorem it observes only entries stored under
`h'`.  (A bare `next()` issued after the rebind with no intervening seek
is NOT covered: the underlying duplicate cursors keep their physical
positions, see the counterexample.) -/
theorem c4_set_hashed_address_clears_merge_state {N : Type}
    (st : SplitStorageTrieCursor N) (h' : B256) (p : Nibbles) (fuel : Nat) :
    (SplitStorageTrieCursor.set_hashed_address h' st).shallow.hashed_address = h'
    ∧ (SplitStorageTrieCursor.set_hashed_address h' st).deep.hashed_address = h'
    ∧ (SplitStorageTrieCursor.set_hashed_address h' st).pending_shallow = none
    ∧ (SplitStorageTrieCursor.set_hashed_address h' st).pending_deep = none
    ∧ (SplitStorageTrieCursor.set_hashed_address h' st).last_consumed = none
    ∧ SplitStorageTrieCursor.current (SplitStorageTrieCursor.set_hashed_address h' st) = none
    ∧ SplitStorageTrieCursor.seek p (SplitStorageTrieCursor.set_hashed_address h' st)
        = SplitStorageTrieCursor.seek p
            (SplitStorageTrieCursor.new st.shallow.db st.deep.db h')
    ∧ (SplitStorageTrieCursor.seek_exact p (SplitStorageTrieCursor.set_hashed_address h' st)).1
        = (SplitStorageTrieCursor.seek_exact p
            (SplitStorageTrieCursor.new st.shallow.db st.deep.db h')).1
    ∧ storageTraverse p (SplitStorageTrieCursor.set_hashed_address h' st) fuel
        = storageTraverse p
            (SplitStorageTrieCursor.new st.shallow.db st.deep.db h') fuel := by
  obtain ⟨⟨sdb, sh, sp⟩, ⟨ddb, dh, dq⟩, ps, pd, lc⟩ := st
  have hseek : SplitCursorState.seekWith (StorageAdapter.seek p)
      (SplitStorageTrieCursor.set_hashed_address h'
        ⟨⟨sdb, sh, sp⟩, ⟨ddb, dh, dq⟩, ps, pd, lc⟩)
      = SplitCursorState.seekWith (StorageAdapter.seek p)
          (SplitStorageTrieCursor.new sdb ddb h') := by
    simp [SplitCursorState.seekWith,
      SplitStorageTrieCursor.set_hashed_address, StorageAdapter.set_hashed_address,
      SplitStorageTrieCursor.new, StorageAdapter.seek]
  refine ⟨rfl, rfl, rfl, rfl, rfl, rfl, hseek, ?_, ?_⟩
  · by_cases hl : p.length ≤ SHALLOW_TRIE_DEPTH <;>
      simp [SplitStorageTrieCursor.seek_exact, SplitCursorState.seekExactWith,
        SplitStorageTrieCursor.set_hashed_address, StorageAdapter.set_hashed_address,
        SplitStorageTrieCursor.new, StorageAdapter.seekExact, StorageAdapter.seek, hl]
  · unfold storageTraverse traverseWith
    rw [hseek]

/-- Counterexample to C4 as stated: shallow storage holds paths [1], [2]
under hash 0 and nothing under hash 1.  After `seek` under hash 0 and
`set_hashed_address 1`, a bare `next()` still returns the entry ([2], 0)
stored under the previously bound hash 0 — the underlying duplicate
cursor's physical position survives the rebind, and its next-duplicate
operation continues inside hash 0's duplicate list. -/
theorem c4_set_hashed_address_counterexample :
    (SplitStorageTrieCursor.next
        (SplitStorageTrieCursor.set_hashed_address 1
          (SplitStorageTrieCursor.seek []
            (SplitStorageTrieCursor.new
              (fun h => if h = 0 then [([1], 0), ([2], 0)] else [])
              (fun _ => ([] : List (Nibbles × Nat))) 0)).2)).1
      = some ([2], 0)
    ∧ (fun h => if h = 0 then [([1], (0 : Nat)), ([2], 0)] else []) 1 = []
    ∧ ([2], (0 : Nat)) ∈ (fun h => if h = 0 then [([1], (0 : Nat)), ([2], 0)] else []) 0 := by
  refine ⟨?_, by decide, by decide⟩
  decide

/-- Claim C7 (amended): `reset()` clears both pending slots and
`last_consumed`.  A following `seek` returns the same result and leaves
the same state as on a freshly constructed cursor over the same tables,
and a following `seek_exact` or `current` returns the same result as on a
fresh cursor (for the storage cursor, with the fresh cursor bound to the
same hash).  A following `next()` is NOT equivalent to a fresh cursor's
`next()`: the underlying cursors keep their positions across `reset`, see
the counterexample. -/
theorem c7_reset_then_operation_matches_fresh {N : Type}
    (st : SplitAccountTrieCursor N) (stS : SplitStorageTrieCursor N) (p : Nibbles) :
    (SplitCursorState.reset st).pending_shallow = none
    ∧ (SplitCursorState.reset st).pending_deep = none
    ∧ (SplitCursorState.reset st).last_consumed = none
    ∧ SplitAccountTrieCursor.seek p (SplitCursorState.reset st)
        = SplitAccountTrieCursor.seek p
            (SplitAccountTrieCursor.new st.shallow.tbl st.deep.tbl)
    ∧ (SplitAccountTrieCursor.seek_exact p (SplitCursorState.reset st)).1
        = (SplitAccountTrieCursor.seek_exact p
            (SplitAccountTrieCursor.new st.shallow.tbl st.deep.tbl)).1
    ∧ SplitAccountTrieCursor.current (SplitCursorState.reset st)
        = SplitAccountTrieCursor.current
            (SplitAccountTrieCursor.new st.shallow.tbl st.deep.tbl)
    ∧ (stS.deep.hashed_address = stS.shallow.hashed_address →
        SplitStorageTrieCursor.seek p (SplitCursorState.reset stS)
          = SplitStorageTrieCursor.seek p
              (SplitStorageTrieCursor.new stS.shallow.db stS.deep.db
                stS.shallow.hashed_address)) := by
  obtain ⟨⟨S, sp⟩, ⟨D, dq⟩, ps, pd, lc⟩ := st
  obtain ⟨⟨sdb, sh, spos⟩, ⟨ddb, dh, dpos⟩, psS, pdS, lcS⟩ := stS
  refine ⟨rfl, rfl, rfl, ?_, ?_, rfl, ?_⟩
  · simp [SplitAccountTrieCursor.seek, SplitCursorState.seekWith, SplitCursorState.reset,
      SplitAccountTrieCursor.new, Cursor.seek]
  · by_cases hl : p.length ≤ SHALLOW_TRIE_DEPTH <;>
      simp [SplitAccountTrieCursor.seek_exact, SplitCursorState.seekExactWith,
        SplitCursorState.reset, SplitAccountTrieCursor.new, Cursor.seekExact, hl]
  · intro hH
    simp only at hH
    subst hH
    simp [SplitStorageTrieCursor.seek, SplitCursorState.seekWith, SplitCursorState.reset,
      SplitStorageTrieCursor.new, StorageAdapter.seek]

/-- Counterexample to C7 as stated: with shallow table [([1],0), ([2],0)]
and empty deep table, `seek []` consumes ([1],0); after `reset()`, the
next `next()` returns ([2],0), while `next()` on a fresh cursor over the
same tables returns ([1],0) — `reset` does not reposition the underlying
cursors, so it is not equivalent to a fresh cursor for `next`. -/
theorem c7_reset_counterexample :
    (SplitAccountTrieCursor.next
        (SplitCursorState.reset
          (SplitAccountTrieCursor.seek []
            (SplitAccountTrieCursor.new [([1], 0), ([2], 0)]
              ([] : List (Nibbles × Nat)))).2)).1
      = some ([2], 0)
    ∧ (SplitAccountTrieCursor.next
        (SplitAccountTrieCursor.new [([1], 0), ([2], 0)]
          ([] : List (Nibbles × Nat)))).1
      = some ([1], 0)
    ∧ some (([2] : Nibbles), (0 : Nat)) ≠ some (([1] : Nibbles), (0 : Nat)) := by
  refine ⟨?_, ?_, by decide⟩
  · decide
  · decide

/-- Witness for C7 at a concrete used cursor state. -/
theorem c7_reset_then_operation_matches_fresh_witness :
    SplitAccountTrieCursor.seek []
        (SplitCursorState.reset
          (SplitAccountTrieCursor.seek []
            (SplitAccountTrieCursor.new [([1], 0), ([2], 0)]
              ([] : List (Nibbles × Nat)))).2)
      = SplitAccountTrieCursor.seek []
          (SplitAccountTrieCursor.new [([1], 0), ([2], 0)]
            ([] : List (Nibbles × Nat))) :=
  ((((c7_reset_then_operation_matches_fresh
      (SplitAccountTrieCursor.seek []
        (SplitAccountTrieCursor.new [([1], 0), ([2], 0)]
          ([] : List (Nibbles × Nat)))).2
      (SplitStorageTrieCursor.new (fun _ => []) (fun _ => []) 0) []).2).2).2).1
